import Mathlib

/-!
Shallow embedding of the `aoccli` repository (an Advent-of-Code private
leaderboard TUI written in Go) and proofs about its specification.

The embedding covers:
* the leaderboard data model and the score engine (`MaxAvailableDay`,
  `DayReleaseTime`, `BuildDayEntries`) from the `aoc` package;
* the interactive controller (`Model`, `Update`, `updateConfigKey`,
  `updateLeaderboardKey`, `validateLeaderboardURL`) from the `tui` package.

Modelling conventions:
* Go `int`/`int64` become `Int` (all values involved are tiny; no overflow
  is reachable in the modelled arithmetic, except in `atoi?` where the Go
  `strconv.Atoi` range check is modelled explicitly).
* Go maps become association lists; Go map iteration order is
  nondeterministic, so the `members` map is carried as a list and claims
  that depend on enumeration order are stated over permutations of it.
  Claims that need "each key occurs once" carry a `Nodup` hypothesis,
  which is what a Go map guarantees.
* `time.Time` / `time.Duration` become `Int` unix seconds (the Go code
  converts star timestamps with `time.Unix(ts, 0)` and subtracts; the
  nanosecond scale factor is order- and sign-preserving and never
  compared against a constant, so seconds are a faithful unit).
* `sort.Slice` (an unstable sort) is modelled by an insertion sort; for
  the final display sort the comparator is total on entries with distinct
  member keys, so every sorted permutation is equal to this one; for the
  per-part timestamp sorts the result is unique whenever timestamps are
  distinct, and the tie case is analysed explicitly in the idempotence
  claim.
-/

/-- `StarCompletion` mirrors the Go struct of the same name
(`star_index`, `get_star_ts`). -/
structure StarCompletion where
  StarIndex : Int
  GetStarTs : Int
deriving DecidableEq, Repr

/-- `Member` mirrors the Go struct: `completion_day_level` is a JSON map
from day-number string to a map from star-index string ("1"/"2") to a
`StarCompletion`; both maps become association lists. -/
structure Member where
  ID : Int
  Name : Option String
  LocalScore : Int
  Stars : Int
  LastStarTs : Int
  CompletionDayLevel : List (String × List (String × StarCompletion))
deriving DecidableEq, Repr

/-- `Leaderboard` mirrors the Go struct; the `members` map becomes an
association list (its order stands for Go's map enumeration order). -/
structure Leaderboard where
  Members : List (String × Member)
  NumDays : Int
  OwnerID : Int
  Day1Ts : Int
  Event : String
deriving DecidableEq, Repr

/-- Go map lookup on an association list: first binding wins
(a Go map has at most one binding per key). -/
def lookupKey (k : String) : List (String × β) → Option β
  | [] => none
  | kv :: rest => if kv.1 = k then some kv.2 else lookupKey k rest

/-- `Member.DisplayName` mirrors the Go method: the name if present and
non-empty, otherwise an anonymized form built from the numeric id. -/
def Member.DisplayName (m : Member) : String :=
  match m.Name with
  | some n => if n ≠ "" then n else "(anonymous user #" ++ toString m.ID ++ ")"
  | none => "(anonymous user #" ++ toString m.ID ++ ")"

/-- `DayEntry` mirrors the Go struct: the per-day, per-user leaderboard row.
`Part1Since`/`Part2Since` are seconds since the day's release. -/
structure DayEntry where
  MemberID : String
  Name : String
  Day : Int
  DayScore : Int
  StarsToday : Nat
  HasPart1 : Bool
  HasPart2 : Bool
  Part1Since : Int
  Part2Since : Int
  Pos : Nat
deriving DecidableEq, Repr

/-- Accumulating loop of `digitsToNat?`. -/
def digitsToNatGo : List Char → Nat → Option Nat
  | [], acc => some acc
  | c :: rest, acc =>
    if c.isDigit then digitsToNatGo rest (acc * 10 + (c.toNat - 48)) else none

/-- Digit-string to number; `none` on the empty string or a non-digit. -/
def digitsToNat? : List Char → Option Nat
  | [] => none
  | cs => digitsToNatGo cs 0

/-- Model of Go `strconv.Atoi`: optional sign, one or more digits, and the
64-bit `int` range check (out-of-range input is an error, i.e. `none`). -/
def atoi? (s : String) : Option Int :=
  match s.data with
  | '-' :: rest =>
    match digitsToNat? rest with
    | some n => if (n : Int) ≤ 9223372036854775808 then some (-(n : Int)) else none
    | none => none
  | '+' :: rest =>
    match digitsToNat? rest with
    | some n => if (n : Int) ≤ 9223372036854775807 then some (n : Int) else none
    | none => none
  | cs =>
    match digitsToNat? cs with
    | some n => if (n : Int) ≤ 9223372036854775807 then some (n : Int) else none
    | none => none

/-- `MaxAvailableDay` mirrors the Go function: scan every member's
completion map for the largest numeric day key (non-numeric keys are
skipped), then clamp above by `NumDays` when positive and below by 1. -/
def MaxAvailableDay (lb : Leaderboard) : Int :=
  let maxDay := lb.Members.foldl (fun acc km =>
    km.2.CompletionDayLevel.foldl (fun acc2 kv =>
      match atoi? kv.1 with
      | none => acc2
      | some d => if d > acc2 then d else acc2) acc) 1
  let maxDay2 := if lb.NumDays > 0 ∧ maxDay > lb.NumDays then lb.NumDays else maxDay
  if maxDay2 < 1 then 1 else maxDay2

/-- `DayReleaseTime` mirrors the Go function, in unix seconds: the day-1
anchor plus `(day-1)` 24-hour periods, with `day` floored to 1. -/
def DayReleaseTime (lb : Leaderboard) (day : Int) : Int :=
  let d := if day < 1 then 1 else day
  lb.Day1Ts + (d - 1) * 86400

/-- The anonymous `starRecord` struct inside Go `BuildDayEntries`. -/
structure starRecord where
  memberKey : String
  ts : Int
deriving DecidableEq, Repr

/-- A member's completion record for one day and one star index, if any
(`m.CompletionDayLevel[dayKey][star]` in Go; a `nil` map looks up to
nothing just like an empty one). -/
def dayStar (m : Member) (dayKey star : String) : Option StarCompletion :=
  match lookupKey dayKey m.CompletionDayLevel with
  | none => none
  | some dayData => lookupKey star dayData

/-- The collection loop of Go `BuildDayEntries`: the `(member, timestamp)`
records of the members holding star `star` of day `dayKey`, in member
enumeration order. -/
def starRecords (members : List (String × Member)) (dayKey star : String) : List starRecord :=
  members.filterMap (fun km =>
    (dayStar km.2 dayKey star).map (fun s => ⟨km.1, s.GetStarTs⟩))

/-- Insert `a` into `l`, before the first element `x` with `lt a x`. -/
def insertBy (lt : α → α → Bool) (a : α) : List α → List α
  | [] => [a]
  | x :: xs => if lt a x then a :: x :: xs else x :: insertBy lt a xs

/-- Insertion sort by a strict comparator: model of Go `sort.Slice`.
(The Go sort is unstable; when the comparator is total on the list's
elements every sorted permutation coincides with this one.) -/
def sortBy (lt : α → α → Bool) (l : List α) : List α :=
  l.foldl (fun acc x => insertBy lt x acc) []

/-- Timestamp comparator of the two `sort.Slice` calls on `p1`/`p2`. -/
def ltTs (a b : starRecord) : Bool := decide (a.ts < b.ts)

/-- The display comparator of the final `sort.Slice` in Go
`BuildDayEntries`, branch for branch. -/
def ltDisplay (a b : DayEntry) : Bool :=
  if a.DayScore ≠ b.DayScore then decide (a.DayScore > b.DayScore)
  else if a.StarsToday ≠ b.StarsToday then decide (a.StarsToday > b.StarsToday)
  else if a.StarsToday = 2 ∧ b.StarsToday = 2 ∧ a.Part2Since ≠ b.Part2Since then
    decide (a.Part2Since < b.Part2Since)
  else if a.Name ≠ b.Name then decide (a.Name < b.Name)
  else decide (a.MemberID < b.MemberID)

/-- Own index enumeration (`for i, rec := range …` in Go). -/
def enumFrom : Nat → List α → List (Nat × α)
  | _, [] => []
  | k, a :: l => (k, a) :: enumFrom (k + 1) l

/-- The initial `DayEntry` for one member (the init loop of Go
`BuildDayEntries`; unset Go fields are zero-valued). -/
def initEntry (day : Int) (km : String × Member) : DayEntry :=
  { MemberID := km.1, Name := km.2.DisplayName, Day := day, DayScore := 0,
    StarsToday := 0, HasPart1 := false, HasPart2 := false,
    Part1Since := 0, Part2Since := 0, Pos := 0 }

/-- Body of the part-1 award loop: points `n - i`, one star, the part-1
flag, and the elapsed time since release. -/
def award1 (n : Nat) (release : Int) (p : Nat × starRecord) (e : DayEntry) : DayEntry :=
  { e with DayScore := e.DayScore + ((n : Int) - (p.1 : Int)),
           StarsToday := e.StarsToday + 1,
           HasPart1 := true,
           Part1Since := p.2.ts - release }

/-- Body of the part-2 award loop. -/
def award2 (n : Nat) (release : Int) (p : Nat × starRecord) (e : DayEntry) : DayEntry :=
  { e with DayScore := e.DayScore + ((n : Int) - (p.1 : Int)),
           StarsToday := e.StarsToday + 1,
           HasPart2 := true,
           Part2Since := p.2.ts - release }

/-- One iteration of an award loop: update the entry whose key matches the
record (Go indexes `entriesMap` by member key; a missing key is a no-op). -/
def awardStep (u : Nat × starRecord → DayEntry → DayEntry)
    (entries : List DayEntry) (p : Nat × starRecord) : List DayEntry :=
  entries.map (fun e => if e.MemberID = p.2.memberKey then u p e else e)

/-- The position-assignment loop of Go `BuildDayEntries`, after the first
row: `nextRank` counts every row, a row repeats `lastDisplay` exactly when
its score equals `lastScore`. -/
def assignPosGo : List DayEntry → Nat → Int → Nat → List DayEntry
  | [], _, _, _ => []
  | e :: rest, nextRank, lastScore, lastDisplay =>
    if e.DayScore = lastScore then
      { e with Pos := lastDisplay } :: assignPosGo rest (nextRank + 1) lastScore lastDisplay
    else
      { e with Pos := nextRank } :: assignPosGo rest (nextRank + 1) e.DayScore nextRank

/-- Position assignment (ties share rank, AoC style): the first row gets
position 1, the rest follow `assignPosGo`. -/
def assignPos : List DayEntry → List DayEntry
  | [] => []
  | e :: rest => { e with Pos := 1 } :: assignPosGo rest 2 e.DayScore 1

/-- `BuildDayEntries` mirrors the Go function stage by stage: collect the
per-part records, sort them by timestamp, initialize one entry per member,
run the two award loops, sort for display, and assign positions. -/
def BuildDayEntries (lb : Leaderboard) (day : Int) : List DayEntry :=
  let dayKey := toString day
  let release := DayReleaseTime lb day
  let p1 := starRecords lb.Members dayKey "1"
  let p2 := starRecords lb.Members dayKey "2"
  let s1 := sortBy ltTs p1
  let s2 := sortBy ltTs p2
  let entries0 := lb.Members.map (initEntry day)
  let e1 := (enumFrom 0 s1).foldl (awardStep (award1 s1.length release)) entries0
  let e2 := (enumFrom 0 s2).foldl (awardStep (award2 s2.length release)) e1
  let sorted := sortBy ltDisplay e2
  assignPos sorted

/-! ## Interactive controller (`internal/tui/tui.go`) -/

/-- The Go `appState` enumeration. -/
inductive appState where
  | stateConfig
  | stateLoading
  | stateLeaderboard
deriving DecidableEq, Repr

/-- The Go `config.Config` struct (the persisted preference). -/
structure Config where
  LeaderboardURL : String
deriving DecidableEq, Repr

/-- The Go `tui.Model`. The bubbletea text input is external; only its
current value is observable by the modelled code, so the model carries
that value. Errors are carried as their messages. -/
structure Model where
  state : appState
  cfg : Config
  cfgErr : Option String
  textInputValue : String
  leaderboard : Option Leaderboard
  entries : List DayEntry
  currentDay : Int
  maxDay : Int
  dayPicker : Bool
  pickerDay : Int
  width : Int
  height : Int
  err : Option String
deriving DecidableEq, Repr

/-- The messages consumed by `Update` (`tea.WindowSizeMsg`, `errMsg`,
`leaderboardLoadedMsg`, `tea.KeyMsg` rendered as its string, and any
other message, which Go forwards to the text input in config state). -/
inductive Msg where
  | windowSize (w h : Int)
  | errMsg (e : String)
  | leaderboardLoaded (lb : Leaderboard)
  | key (k : String)
  | other
deriving DecidableEq, Repr

/-- The commands the modelled `Update` can return (`nil`, `tea.Quit`,
`fetchLeaderboardCmd(url)`, or a text-input command). -/
inductive Cmd where
  | none
  | quit
  | fetch (url : String)
  | textInputCmd
deriving DecidableEq, Repr

/-- Result of `url.Parse` as far as `validateLeaderboardURL` observes it:
scheme, path, and the parsed query (`u.Query().Get` takes the first
value bound to a key). `net/url` is external, so the parser itself is a
parameter of the controller functions. -/
structure URLParts where
  scheme : String
  path : String
  query : List (String × String)
deriving DecidableEq, Repr

/-- `u.Query().Get(k)`: first bound value, or the empty string. -/
def queryGet (q : List (String × String)) (k : String) : String :=
  match lookupKey k q with
  | some v => v
  | none => ""

/-- ASCII model of the whitespace set of Go `strings.TrimSpace`. -/
def isSpaceChar (c : Char) : Bool :=
  c = ' ' || c = '\t' || c = '\n' || c = '\r' || c = '\x0b' || c = '\x0c'

/-- Go `strings.TrimSpace`. -/
def trimStr (s : String) : String :=
  ⟨((s.data.dropWhile isSpaceChar).reverse.dropWhile isSpaceChar).reverse⟩

/-- Go `strings.HasSuffix`. -/
def strHasSuffix (s suf : String) : Bool :=
  suf.data.isSuffixOf s.data

/-- Go `strings.Contains` on char lists. -/
def listIsInfix : List Char → List Char → Bool
  | needle, hay =>
    if needle.isPrefixOf hay then true
    else
      match hay with
      | [] => false
      | _ :: t => listIsInfix needle t

/-- `validateLeaderboardURL` mirrors the Go function clause by clause;
`parse` stands for `url.Parse` (`none` = parse error; the Go message
wraps the parse error, modelled as its fixed prefix). -/
def validateLeaderboardURL (parse : String → Option URLParts) (raw : String) : Option String :=
  if trimStr raw = "" then some "URL cannot be empty"
  else
    match parse raw with
    | none => some "invalid URL"
    | some u =>
      if u.scheme ≠ "https" ∧ u.scheme ≠ "http" then
        some "URL must start with http or https"
      else if ¬ strHasSuffix u.path ".json" ∨ ¬ listIsInfix "/leaderboard/private/view/".data u.path.data then
        some "URL should be the private leaderboard JSON link (…/leaderboard/private/view/<id>.json)"
      else if trimStr (queryGet u.query "view_key") = "" then
        some "URL must include ?view_key=<value>"
      else
        Option.none

/-- Result of `updateConfigKey`; `saveCalled` records whether the external
`config.Save` collaborator was invoked. -/
structure ConfigKeyResult where
  model : Model
  cmd : Cmd
  saveCalled : Bool
deriving DecidableEq, Repr

/-- `updateConfigKey` mirrors the Go function. `save` is the external
`config.Save` (its returned error, if any); `tiUpdate` is the external
text-input transition on the stored value. -/
def updateConfigKey (parse : String → Option URLParts) (save : Config → Option String)
    (tiUpdate : String → Msg → String) (m : Model) (key : String) : ConfigKeyResult :=
  if key = "enter" then
    let url := trimStr m.textInputValue
    match validateLeaderboardURL parse url with
    | some e => ⟨{ m with err := some e }, Cmd.none, false⟩
    | none =>
      let cfg2 : Config := { m.cfg with LeaderboardURL := url }
      match save cfg2 with
      | some e => ⟨{ m with cfg := cfg2, err := some e }, Cmd.none, true⟩
      | none => ⟨{ m with cfg := cfg2, state := appState.stateLoading, err := none }, Cmd.fetch url, true⟩
  else if key = "ctrl+c" ∨ key = "esc" then
    ⟨m, Cmd.quit, false⟩
  else
    ⟨{ m with textInputValue := tiUpdate m.textInputValue (Msg.key key) }, Cmd.textInputCmd, false⟩

/-- `updateLeaderboardKey` mirrors the Go function branch by branch. -/
def updateLeaderboardKey (m : Model) (key : String) : Model × Cmd :=
  if key = "ctrl+c" ∨ key = "q" then (m, Cmd.quit)
  else
    match m.leaderboard with
    | none => (m, Cmd.none)
    | some lb =>
      if m.dayPicker then
        if key = "up" ∨ key = "k" then
          (if m.pickerDay > 1 then { m with pickerDay := m.pickerDay - 1 } else m, Cmd.none)
        else if key = "down" ∨ key = "j" then
          (if m.pickerDay < m.maxDay then { m with pickerDay := m.pickerDay + 1 } else m, Cmd.none)
        else if key = "enter" then
          ({ m with currentDay := m.pickerDay,
                    entries := BuildDayEntries lb m.pickerDay,
                    dayPicker := false }, Cmd.none)
        else if key = "esc" ∨ key = "d" then
          ({ m with dayPicker := false }, Cmd.none)
        else (m, Cmd.none)
      else
        if key = "left" ∨ key = "h" then
          (if m.currentDay > 1 then
            { m with currentDay := m.currentDay - 1,
                     entries := BuildDayEntries lb (m.currentDay - 1) }
           else m, Cmd.none)
        else if key = "right" ∨ key = "l" then
          (if m.currentDay < m.maxDay then
            { m with currentDay := m.currentDay + 1,
                     entries := BuildDayEntries lb (m.currentDay + 1) }
           else m, Cmd.none)
        else if key = "d" then
          ({ m with dayPicker := true, pickerDay := m.currentDay }, Cmd.none)
        else if key = "r" then
          ({ m with state := appState.stateLoading }, Cmd.fetch m.cfg.LeaderboardURL)
        else (m, Cmd.none)

/-- `Model.Update` mirrors the Go method: window sizes are stored; a fetch
error is recorded and a loading model falls back to the leaderboard view;
a loaded snapshot replaces the old one, clamps the active day and
recomputes entries; keys dispatch per state; any other message reaches
the text input only in config state. -/
def Update (parse : String → Option URLParts) (save : Config → Option String)
    (tiUpdate : String → Msg → String) (m : Model) : Msg → Model × Cmd
  | Msg.windowSize w h => ({ m with width := w, height := h }, Cmd.none)
  | Msg.errMsg e =>
    ({ m with err := some e,
              state := if m.state = appState.stateLoading then appState.stateLeaderboard
                       else m.state }, Cmd.none)
  | Msg.leaderboardLoaded lb =>
    let maxDay := MaxAvailableDay lb
    let cd1 := if m.currentDay < 1 then maxDay else m.currentDay
    let cd2 := if cd1 > maxDay then maxDay else cd1
    ({ m with leaderboard := some lb, maxDay := maxDay, currentDay := cd2,
              entries := BuildDayEntries lb cd2,
              state := appState.stateLeaderboard, err := none }, Cmd.none)
  | Msg.key k =>
    match m.state with
    | appState.stateConfig =>
      let r := updateConfigKey parse save tiUpdate m k
      (r.model, r.cmd)
    | appState.stateLoading =>
      if k = "ctrl+c" ∨ k = "q" then (m, Cmd.quit) else (m, Cmd.none)
    | appState.stateLeaderboard => updateLeaderboardKey m k
  | Msg.other =>
    if m.state = appState.stateConfig then
      ({ m with textInputValue := tiUpdate m.textInputValue Msg.other }, Cmd.textInputCmd)
    else (m, Cmd.none)

/-! ## Helper definitions for the proofs and claim statements -/

/-- Name-then-member-key lexicographic tail of the display order. -/
def lex4P (a b : DayEntry) : Prop :=
  a.Name < b.Name ∨ (a.Name = b.Name ∧ a.MemberID < b.MemberID)

/-- Part-2-time level of the display order (only active for two-star ties). -/
def lex3P (a b : DayEntry) : Prop :=
  (a.StarsToday = 2 ∧ b.StarsToday = 2 ∧ a.Part2Since < b.Part2Since)
  ∨ (¬(a.StarsToday = 2 ∧ b.StarsToday = 2 ∧ a.Part2Since ≠ b.Part2Since) ∧ lex4P a b)

/-- The display order as the specification states it: day score descending,
then stars-today descending, then (only when both entries have two stars
today) part-2 elapsed time ascending, then name ascending, then member key
ascending. -/
def DispLtP (a b : DayEntry) : Prop :=
  b.DayScore < a.DayScore
  ∨ (a.DayScore = b.DayScore
     ∧ (b.StarsToday < a.StarsToday ∨ (a.StarsToday = b.StarsToday ∧ lex3P a b)))

/-- Full tie of the display comparator: every compared key agrees. -/
def tieD (a b : DayEntry) : Prop :=
  a.DayScore = b.DayScore ∧ a.StarsToday = b.StarsToday
  ∧ (a.StarsToday = 2 → a.Part2Since = b.Part2Since)
  ∧ a.Name = b.Name ∧ a.MemberID = b.MemberID

/-- An entry with its position cleared: `assignPos` only rewrites `Pos`. -/
def erasePos (e : DayEntry) : DayEntry := { e with Pos := 0 }

/-- Points member `k` receives from the sorted record list of one part:
`n - i` for the first index `i` whose record belongs to `k`, else 0. -/
def partAwardGo (n : Nat) : Nat → List starRecord → String → Int
  | _, [], _ => 0
  | i, r :: rest, k => if r.memberKey = k then (n : Int) - (i : Int) else partAwardGo n (i + 1) rest k

/-- Award of one part to member `k`: with `n` finishers, the `i`-th
earliest (0-indexed) receives `n - i` points. -/
def partAward (s : List starRecord) (k : String) : Int :=
  partAwardGo s.length 0 s k

/-- The sorted record list of one part for one day. -/
def sortedPart (lb : Leaderboard) (day : Int) (star : String) : List starRecord :=
  sortBy ltTs (starRecords lb.Members (toString day) star)

/-- Completion timestamp of member `k` in a record list, if present. -/
def tsOf (s : List starRecord) (k : String) : Option Int :=
  (s.find? (fun r => r.memberKey == k)).map starRecord.ts

/-- Closed form of one member's entry after both award passes (proved equal
to the computed entry when member keys are unique). -/
def scoredEntry (lb : Leaderboard) (day : Int) (km : String × Member) : DayEntry :=
  let s1 := sortedPart lb day "1"
  let s2 := sortedPart lb day "2"
  let release := DayReleaseTime lb day
  { MemberID := km.1, Name := km.2.DisplayName, Day := day,
    DayScore := partAward s1 km.1 + partAward s2 km.1,
    StarsToday := (if km.1 ∈ s1.map starRecord.memberKey then 1 else 0)
                  + (if km.1 ∈ s2.map starRecord.memberKey then 1 else 0),
    HasPart1 := decide (km.1 ∈ s1.map starRecord.memberKey),
    HasPart2 := decide (km.1 ∈ s2.map starRecord.memberKey),
    Part1Since := (match tsOf s1 km.1 with | some t => t - release | none => 0),
    Part2Since := (match tsOf s2 km.1 with | some t => t - release | none => 0),
    Pos := 0 }

/-- The numeric day keys of all members, in scan order (spec-side helper
for `MaxAvailableDay`): non-numeric keys are dropped. -/
def numericDayKeys (lb : Leaderboard) : List Int :=
  lb.Members.foldr (fun km acc => km.2.CompletionDayLevel.filterMap (fun kv => atoi? kv.1) ++ acc) []

/-- `MaxAvailableDay` as the specification words it: the largest numeric
day key, clamped below by 1, and clamped above by the declared bound when
that bound is positive. -/
def specMaxAvailableDay (lb : Leaderboard) : Int :=
  let M := (numericDayKeys lb).foldl max 1
  if 0 < lb.NumDays then min M lb.NumDays else M

/-- Triangular numbers. -/
def triangular : Nat → Nat
  | 0 => 0
  | n + 1 => triangular n + (n + 1)


/-! ## Concrete fixtures used by the witnesses -/

/-- Fixture member: both parts of day 1 (part 1 at 100s, part 2 at 200s). -/
def wAlice : Member := ⟨1, some "alice", 0, 0, 0, [("1", [("1", ⟨1, 100⟩), ("2", ⟨2, 200⟩)])]⟩

/-- Fixture member: part 1 of day 1 at 50s. -/
def wBob : Member := ⟨2, some "bob", 0, 0, 0, [("1", [("1", ⟨1, 50⟩)])]⟩

/-- Fixture member: no completions. -/
def wCarol : Member := ⟨3, some "carol", 0, 0, 0, []⟩

/-- Fixture snapshot with three members and distinct timestamps. -/
def lbW : Leaderboard := ⟨[("a", wAlice), ("b", wBob), ("c", wCarol)], 25, 1, 0, "2024"⟩

/-- The same snapshot with the member map enumerated in another order. -/
def lbWperm : Leaderboard := ⟨[("c", wCarol), ("b", wBob), ("a", wAlice)], 25, 1, 0, "2024"⟩

/-- Fixture member completing part 1 of day 1 at timestamp 100. -/
def tAlice : Member := ⟨1, some "alice", 0, 0, 0, [("1", [("1", ⟨1, 100⟩)])]⟩

/-- Fixture member completing part 1 of day 1 at the same timestamp 100. -/
def tBob : Member := ⟨2, some "bob", 0, 0, 0, [("1", [("1", ⟨1, 100⟩)])]⟩

/-- Tied-timestamp snapshot, one enumeration order of the member map. -/
def lbTie1 : Leaderboard := ⟨[("a", tAlice), ("b", tBob)], 25, 1, 0, "2024"⟩

/-- The same tied-timestamp snapshot, the other enumeration order. -/
def lbTie2 : Leaderboard := ⟨[("b", tBob), ("a", tAlice)], 25, 1, 0, "2024"⟩

/-- Fixture `url.Parse`: recognises one good URL (whose query has no
`view_key`) and fails on everything else. -/
def parse0 : String → Option URLParts := fun s =>
  if s = "https://adventofcode.com/2024/leaderboard/private/view/12345.json" then
    some ⟨"https", "/2024/leaderboard/private/view/12345.json", []⟩
  else none

/-- Fixture `config.Save` that always succeeds. -/
def save0 : Config → Option String := fun _ => none

/-- Fixture text-input transition that keeps the value unchanged. -/
def tiUpd0 : String → Msg → String := fun v _ => v

/-- Fixture model: loading state with a stored snapshot. -/
def m7 : Model :=
  ⟨appState.stateLoading, ⟨"u"⟩, none, "", some lbW, [], 1, 1, false, 1, 0, 0, none⟩

/-- Fixture model: config state whose text input holds the no-view-key URL. -/
def m8 : Model :=
  ⟨appState.stateConfig, ⟨""⟩, none,
   "https://adventofcode.com/2024/leaderboard/private/view/12345.json",
   none, [], 0, 0, false, 0, 0, 0, none⟩

/-- Fixture model: viewing day 2 of 2 with the picker closed. -/
def m9 : Model :=
  ⟨appState.stateLeaderboard, ⟨"u"⟩, none, "", some lbW, [], 2, 2, false, 2, 0, 0, none⟩


/-! ## Sorting infrastructure -/

theorem insertBy_perm (lt : α → α → Bool) (a : α) (l : List α) :
    (insertBy lt a l).Perm (a :: l) := by
  induction l with
  | nil => simp [insertBy]
  | cons x xs ih =>
    unfold insertBy
    by_cases h : lt a x = true
    · simp [h]
    · simp only [h]
      rw [if_neg (by simp [h])]
      exact (ih.cons x).trans (List.Perm.swap a x xs)

theorem sortBy_aux_perm (lt : α → α → Bool) :
    ∀ (l acc : List α), (l.foldl (fun acc x => insertBy lt x acc) acc).Perm (acc ++ l) := by
  intro l
  induction l with
  | nil => intro acc; simp
  | cons x xs ih =>
    intro acc
    have h1 := ih (insertBy lt x acc)
    have h2 : (insertBy lt x acc ++ xs).Perm (acc ++ x :: xs) := by
      refine ((insertBy_perm lt x acc).append_right xs).trans ?_
      exact List.perm_middle.symm
    rw [List.foldl_cons]
    exact h1.trans h2

theorem sortBy_perm (lt : α → α → Bool) (l : List α) : (sortBy lt l).Perm l := by
  have := sortBy_aux_perm lt l []
  simpa [sortBy] using this

theorem pairwise_insertBy (lt : α → α → Bool)
    (hneg : ∀ x y z : α, lt y x = false → lt z y = false → lt z x = false)
    (hasym : ∀ x y : α, lt x y = true → lt y x = false)
    (a : α) (l : List α) (h : l.Pairwise (fun x y => lt y x = false)) :
    (insertBy lt a l).Pairwise (fun x y => lt y x = false) := by
  induction l with
  | nil => simp [insertBy]
  | cons x xs ih =>
    rcases List.pairwise_cons.mp h with ⟨hx, hxs⟩
    unfold insertBy
    by_cases hlt : lt a x = true
    · simp only [hlt, if_true]
      refine List.pairwise_cons.mpr ⟨?_, h⟩
      intro y hy
      rcases List.mem_cons.mp hy with rfl | hy2
      · exact hasym _ _ hlt
      · exact hneg a x y (hasym _ _ hlt) (hx y hy2)
    · rw [if_neg hlt]
      refine List.pairwise_cons.mpr ⟨?_, ih hxs⟩
      intro y hy
      rcases List.mem_cons.mp ((insertBy_perm lt a xs).mem_iff.mp hy) with h1 | h2
      · subst h1
        exact Bool.eq_false_iff.mpr (fun hc => hlt hc)
      · exact hx y h2

theorem pairwise_sortBy (lt : α → α → Bool)
    (hneg : ∀ x y z : α, lt y x = false → lt z y = false → lt z x = false)
    (hasym : ∀ x y : α, lt x y = true → lt y x = false)
    (l : List α) : (sortBy lt l).Pairwise (fun x y => lt y x = false) := by
  suffices h : ∀ (l acc : List α), acc.Pairwise (fun x y => lt y x = false) →
      (l.foldl (fun acc x => insertBy lt x acc) acc).Pairwise (fun x y => lt y x = false) by
    exact h l [] (List.Pairwise.nil)
  intro l
  induction l with
  | nil => intro acc hacc; simpa using hacc
  | cons x xs ih =>
    intro acc hacc
    simpa using ih (insertBy lt x acc) (pairwise_insertBy lt hneg hasym x acc hacc)

theorem sorted_perm_unique (lt : α → α → Bool) :
    ∀ (l₁ l₂ : List α), l₁.Perm l₂ →
      l₁.Pairwise (fun x y => lt y x = false) →
      l₂.Pairwise (fun x y => lt y x = false) →
      (∀ a ∈ l₁, ∀ b ∈ l₁, a ≠ b → lt a b = true ∨ lt b a = true) →
      l₁ = l₂ := by
  intro l₁
  induction l₁ with
  | nil => intro l₂ hp _ _ _; exact (hp.nil_eq).symm ▸ rfl
  | cons a t₁ ih =>
    intro l₂ hp h₁ h₂ htot
    cases l₂ with
    | nil => exact absurd hp.symm (by simp)
    | cons b t₂ =>
      by_cases hab : a = b
      · subst hab
        have ht : t₁.Perm t₂ := hp.cons_inv
        have := ih t₂ ht (List.pairwise_cons.mp h₁).2 (List.pairwise_cons.mp h₂).2
          (fun x hx y hy hxy => htot x (List.mem_cons_of_mem _ hx) y (List.mem_cons_of_mem _ hy) hxy)
        rw [this]
      · have ha2 : a ∈ b :: t₂ := hp.mem_iff.mp (List.mem_cons_self a t₁)
        have ha3 : a ∈ t₂ := by
          rcases List.mem_cons.mp ha2 with h | h
          · exact absurd h hab
          · exact h
        have hb1 : b ∈ a :: t₁ := hp.mem_iff.mpr (List.mem_cons_self b t₂)
        have hb2 : b ∈ t₁ := by
          rcases List.mem_cons.mp hb1 with h | h
          · exact absurd h.symm hab
          · exact h
        have hba : lt b a = false := (List.pairwise_cons.mp h₁).1 b hb2
        have hab2 : lt a b = false := (List.pairwise_cons.mp h₂).1 a ha3
        rcases htot a (List.mem_cons_self a t₁) b (List.mem_cons_of_mem _ hb2) hab with h | h
        · rw [hab2] at h; exact absurd h (by simp)
        · rw [hba] at h; exact absurd h (by simp)

/-! ## Display comparator lemmas -/

theorem ltDisplay_char (a b : DayEntry) : ltDisplay a b = true ↔ DispLtP a b := by
  unfold ltDisplay DispLtP lex3P lex4P
  split_ifs with h1 h2 h3 h4
  · simp only [decide_eq_true_eq]
    constructor
    · intro h; exact Or.inl h
    · rintro (h | ⟨he, _⟩)
      · exact h
      · exact absurd he h1
  · push_neg at h1
    simp only [decide_eq_true_eq]
    constructor
    · intro h; exact Or.inr ⟨h1, Or.inl h⟩
    · rintro (h | ⟨_, h | ⟨he, _⟩⟩)
      · omega
      · exact h
      · exact absurd he h2
  · push_neg at h1 h2
    simp only [decide_eq_true_eq]
    constructor
    · intro h; exact Or.inr ⟨h1, Or.inr ⟨h2, Or.inl ⟨h3.1, h3.2.1, h⟩⟩⟩
    · rintro (h | ⟨_, h | ⟨_, ⟨_, _, h⟩ | ⟨hn, _⟩⟩⟩)
      · omega
      · omega
      · exact h
      · exact absurd h3 hn
  · push_neg at h1 h2
    simp only [decide_eq_true_eq]
    constructor
    · intro h; exact Or.inr ⟨h1, Or.inr ⟨h2, Or.inr ⟨h3, Or.inl h⟩⟩⟩
    · rintro (h | ⟨_, h | ⟨_, ⟨hx, hy, h⟩ | ⟨_, h | ⟨he, _⟩⟩⟩⟩)
      · omega
      · omega
      · exact absurd ⟨hx, hy, by exact ne_of_lt h⟩ h3
      · exact h
      · exact absurd he h4
  · push_neg at h1 h2 h4
    simp only [decide_eq_true_eq]
    constructor
    · intro h; exact Or.inr ⟨h1, Or.inr ⟨h2, Or.inr ⟨h3, Or.inr ⟨h4, h⟩⟩⟩⟩
    · rintro (h | ⟨_, h | ⟨_, ⟨hx, hy, h⟩ | ⟨_, h | ⟨_, h⟩⟩⟩⟩)
      · omega
      · omega
      · exact absurd ⟨hx, hy, by exact ne_of_lt h⟩ h3
      · exact absurd h (by rw [h4]; exact lt_irrefl _)
      · exact h

theorem lex3P_iff_two (a b : DayEntry) (ha : a.StarsToday = 2) (hb : b.StarsToday = 2) :
    lex3P a b ↔ (a.Part2Since < b.Part2Since ∨ (a.Part2Since = b.Part2Since ∧ lex4P a b)) := by
  unfold lex3P
  constructor
  · rintro (⟨_, _, h⟩ | ⟨hn, h⟩)
    · exact Or.inl h
    · have he : a.Part2Since = b.Part2Since := by
        by_contra hne
        exact hn ⟨ha, hb, hne⟩
      exact Or.inr ⟨he, h⟩
  · rintro (h | ⟨he, h⟩)
    · exact Or.inl ⟨ha, hb, h⟩
    · exact Or.inr ⟨fun hx => hx.2.2 he, h⟩

theorem lex3P_iff_notTwo (a b : DayEntry) (ha : ¬(a.StarsToday = 2 ∧ b.StarsToday = 2)) :
    lex3P a b ↔ lex4P a b := by
  unfold lex3P
  constructor
  · rintro (⟨h1, h2, _⟩ | ⟨_, h⟩)
    · exact absurd ⟨h1, h2⟩ ha
    · exact h
  · intro h
    exact Or.inr ⟨fun hx => ha ⟨hx.1, hx.2.1⟩, h⟩

theorem lex4P_trans (a b c : DayEntry) (h1 : lex4P a b) (h2 : lex4P b c) : lex4P a c := by
  rcases h1 with h1 | ⟨e1, h1⟩ <;> rcases h2 with h2 | ⟨e2, h2⟩
  · exact Or.inl (lt_trans h1 h2)
  · exact Or.inl (by rw [← e2]; exact h1)
  · exact Or.inl (by rw [e1]; exact h2)
  · exact Or.inr ⟨e1.trans e2, lt_trans h1 h2⟩

theorem DispLtP_trans (a b c : DayEntry) (h1 : DispLtP a b) (h2 : DispLtP b c) : DispLtP a c := by
  rcases h1 with h1 | ⟨e1, h1⟩
  · rcases h2 with h2 | ⟨e2, h2⟩
    · exact Or.inl (lt_trans h2 h1)
    · exact Or.inl (by rw [← e2]; exact h1)
  · rcases h2 with h2 | ⟨e2, h2⟩
    · exact Or.inl (by rw [e1]; exact h2)
    · refine Or.inr ⟨e1.trans e2, ?_⟩
      rcases h1 with h1 | ⟨f1, h1⟩
      · rcases h2 with h2 | ⟨f2, h2⟩
        · exact Or.inl (lt_trans h2 h1)
        · exact Or.inl (by rw [← f2]; exact h1)
      · rcases h2 with h2 | ⟨f2, h2⟩
        · exact Or.inl (by rw [f1]; exact h2)
        · refine Or.inr ⟨f1.trans f2, ?_⟩
          by_cases hv : a.StarsToday = 2
          · have hb2 : b.StarsToday = 2 := by rw [← f1]; exact hv
            have hc2 : c.StarsToday = 2 := by rw [← f2]; exact hb2
            rw [lex3P_iff_two a b hv hb2] at h1
            rw [lex3P_iff_two b c hb2 hc2] at h2
            rw [lex3P_iff_two a c hv hc2]
            rcases h1 with h1 | ⟨g1, h1⟩ <;> rcases h2 with h2 | ⟨g2, h2⟩
            · exact Or.inl (lt_trans h1 h2)
            · exact Or.inl (by rw [← g2]; exact h1)
            · exact Or.inl (by rw [g1]; exact h2)
            · exact Or.inr ⟨g1.trans g2, lex4P_trans a b c h1 h2⟩
          · have hb2 : ¬ b.StarsToday = 2 := by rw [← f1]; exact hv
            rw [lex3P_iff_notTwo a b (fun hx => hv hx.1)] at h1
            rw [lex3P_iff_notTwo b c (fun hx => hb2 hx.1)] at h2
            rw [lex3P_iff_notTwo a c (fun hx => hv hx.1)]
            exact lex4P_trans a b c h1 h2

theorem DispLtP_asymm (a b : DayEntry) (h : DispLtP a b) : ¬ DispLtP b a := by
  intro h2
  rcases h with h | ⟨e1, h⟩ <;> rcases h2 with h2 | ⟨e2, h2⟩
  · omega
  · omega
  · omega
  · rcases h with h | ⟨f1, h⟩ <;> rcases h2 with h2 | ⟨f2, h2⟩
    · omega
    · omega
    · omega
    · by_cases hv : a.StarsToday = 2
      · have hb2 : b.StarsToday = 2 := by rw [← f1]; exact hv
        rw [lex3P_iff_two a b hv hb2] at h
        rw [lex3P_iff_two b a hb2 hv] at h2
        rcases h with h | ⟨g1, h⟩ <;> rcases h2 with h2 | ⟨g2, h2⟩
        · omega
        · omega
        · omega
        · rcases h with h | ⟨n1, h⟩ <;> rcases h2 with h2 | ⟨n2, h2⟩
          · exact absurd h2 (lt_asymm h)
          · exact absurd h (by rw [n2]; exact lt_irrefl _)
          · exact absurd h2 (by rw [n1]; exact lt_irrefl _)
          · exact absurd h2 (lt_asymm h)
      · have hb2 : ¬ b.StarsToday = 2 := by rw [← f1]; exact hv
        rw [lex3P_iff_notTwo a b (fun hx => hv hx.1)] at h
        rw [lex3P_iff_notTwo b a (fun hx => hb2 hx.1)] at h2
        rcases h with h | ⟨n1, h⟩ <;> rcases h2 with h2 | ⟨n2, h2⟩
        · exact absurd h2 (lt_asymm h)
        · exact absurd h (by rw [n2]; exact lt_irrefl _)
        · exact absurd h2 (by rw [n1]; exact lt_irrefl _)
        · exact absurd h2 (lt_asymm h)

theorem DispLtP_trichot (a b : DayEntry) (h1 : ¬ DispLtP a b) (h2 : ¬ DispLtP b a) :
    tieD a b := by
  unfold DispLtP at h1 h2
  have es : a.DayScore = b.DayScore := by
    rcases lt_trichotomy a.DayScore b.DayScore with h | h | h
    · exact absurd (Or.inl h) h2
    · exact h
    · exact absurd (Or.inl h) h1
  have est : a.StarsToday = b.StarsToday := by
    rcases lt_trichotomy a.StarsToday b.StarsToday with h | h | h
    · exact absurd (Or.inr ⟨es.symm, Or.inl h⟩) h2
    · exact h
    · exact absurd (Or.inr ⟨es, Or.inl h⟩) h1
  have h1L : ¬ lex3P a b := fun hx => h1 (Or.inr ⟨es, Or.inr ⟨est, hx⟩⟩)
  have h2L : ¬ lex3P b a := fun hx => h2 (Or.inr ⟨es.symm, Or.inr ⟨est.symm, hx⟩⟩)
  by_cases hv : a.StarsToday = 2
  · have hb2 : b.StarsToday = 2 := by rw [← est]; exact hv
    rw [lex3P_iff_two a b hv hb2] at h1L
    rw [lex3P_iff_two b a hb2 hv] at h2L
    have ep : a.Part2Since = b.Part2Since := by
      rcases lt_trichotomy a.Part2Since b.Part2Since with h | h | h
      · exact absurd (Or.inl h) h1L
      · exact h
      · exact absurd (Or.inl h) h2L
    have h1N : ¬ lex4P a b := fun hx => h1L (Or.inr ⟨ep, hx⟩)
    have h2N : ¬ lex4P b a := fun hx => h2L (Or.inr ⟨ep.symm, hx⟩)
    have en : a.Name = b.Name := by
      rcases lt_trichotomy a.Name b.Name with h | h | h
      · exact absurd (Or.inl h) h1N
      · exact h
      · exact absurd (Or.inl h) h2N
    have ei : a.MemberID = b.MemberID := by
      rcases lt_trichotomy a.MemberID b.MemberID with h | h | h
      · exact absurd (Or.inr ⟨en, h⟩) h1N
      · exact h
      · exact absurd (Or.inr ⟨en.symm, h⟩) h2N
    exact ⟨es, est, fun _ => ep, en, ei⟩
  · have hb2 : ¬ b.StarsToday = 2 := by rw [← est]; exact hv
    rw [lex3P_iff_notTwo a b (fun hx => hv hx.1)] at h1L
    rw [lex3P_iff_notTwo b a (fun hx => hb2 hx.1)] at h2L
    have en : a.Name = b.Name := by
      rcases lt_trichotomy a.Name b.Name with h | h | h
      · exact absurd (Or.inl h) h1L
      · exact h
      · exact absurd (Or.inl h) h2L
    have ei : a.MemberID = b.MemberID := by
      rcases lt_trichotomy a.MemberID b.MemberID with h | h | h
      · exact absurd (Or.inr ⟨en, h⟩) h1L
      · exact h
      · exact absurd (Or.inr ⟨en.symm, h⟩) h2L
    exact ⟨es, est, fun hx => absurd hx hv, en, ei⟩

theorem tieD_symm (a b : DayEntry) (h : tieD a b) : tieD b a := by
  obtain ⟨e1, e2, e3, e4, e5⟩ := h
  exact ⟨e1.symm, e2.symm, fun hx => (e3 (by rw [e2]; exact hx)).symm, e4.symm, e5.symm⟩

theorem tieD_subst_left (a b c : DayEntry) (ht : tieD a b) (h : DispLtP b c) : DispLtP a c := by
  obtain ⟨e1, e2, e3, e4, e5⟩ := ht
  rcases h with h | ⟨f1, h⟩
  · exact Or.inl (by rw [e1]; exact h)
  · refine Or.inr ⟨e1.trans f1, ?_⟩
    rcases h with h | ⟨f2, h⟩
    · exact Or.inl (by rw [e2]; exact h)
    · refine Or.inr ⟨e2.trans f2, ?_⟩
      by_cases hv : b.StarsToday = 2
      · have ha2 : a.StarsToday = 2 := by rw [e2]; exact hv
        have hc2 : c.StarsToday = 2 := by rw [← f2]; exact hv
        have ep : a.Part2Since = b.Part2Since := e3 ha2
        rw [lex3P_iff_two b c hv hc2] at h
        rw [lex3P_iff_two a c ha2 hc2]
        rcases h with h | ⟨g, h⟩
        · exact Or.inl (by rw [ep]; exact h)
        · refine Or.inr ⟨ep.trans g, ?_⟩
          rcases h with h | ⟨n, h⟩
          · exact Or.inl (by rw [e4]; exact h)
          · exact Or.inr ⟨e4.trans n, by rw [e5]; exact h⟩
      · have ha2 : ¬ a.StarsToday = 2 := by rw [e2]; exact hv
        rw [lex3P_iff_notTwo b c (fun hx => hv hx.1)] at h
        rw [lex3P_iff_notTwo a c (fun hx => ha2 hx.1)]
        rcases h with h | ⟨n, h⟩
        · exact Or.inl (by rw [e4]; exact h)
        · exact Or.inr ⟨e4.trans n, by rw [e5]; exact h⟩

theorem tieD_subst_right (a b c : DayEntry) (ht : tieD b c) (h : DispLtP a b) : DispLtP a c := by
  obtain ⟨e1, e2, e3, e4, e5⟩ := ht
  rcases h with h | ⟨f1, h⟩
  · exact Or.inl (by rw [← e1]; exact h)
  · refine Or.inr ⟨f1.trans e1, ?_⟩
    rcases h with h | ⟨f2, h⟩
    · exact Or.inl (by rw [← e2]; exact h)
    · refine Or.inr ⟨f2.trans e2, ?_⟩
      by_cases hv : b.StarsToday = 2
      · have ha2 : a.StarsToday = 2 := by rw [f2]; exact hv
        have hc2 : c.StarsToday = 2 := by rw [← e2]; exact hv
        have ep : b.Part2Since = c.Part2Since := e3 hv
        rw [lex3P_iff_two a b ha2 hv] at h
        rw [lex3P_iff_two a c ha2 hc2]
        rcases h with h | ⟨g, h⟩
        · exact Or.inl (by rw [← ep]; exact h)
        · refine Or.inr ⟨g.trans ep, ?_⟩
          rcases h with h | ⟨n, h⟩
          · exact Or.inl (by rw [← e4]; exact h)
          · exact Or.inr ⟨n.trans e4, by rw [← e5]; exact h⟩
      · have ha2 : ¬ c.StarsToday = 2 := by rw [← e2]; exact hv
        rw [lex3P_iff_notTwo a b (fun hx => hv hx.2)] at h
        rw [lex3P_iff_notTwo a c (fun hx => ha2 hx.2)]
        rcases h with h | ⟨n, h⟩
        · exact Or.inl (by rw [← e4]; exact h)
        · exact Or.inr ⟨n.trans e4, by rw [← e5]; exact h⟩

theorem DispLtP_irrefl (a : DayEntry) : ¬ DispLtP a a := by
  rintro (h | ⟨_, h | ⟨_, ⟨_, _, h⟩ | ⟨_, h | ⟨_, h⟩⟩⟩⟩)
  · omega
  · omega
  · exact absurd h (lt_irrefl _)
  · exact absurd h (lt_irrefl _)
  · exact absurd h (lt_irrefl _)

theorem tieD_notLt (a b : DayEntry) (h : tieD a b) : ¬ DispLtP b a := by
  intro hx
  exact DispLtP_irrefl a (tieD_subst_left a b a h hx)

theorem ltDisplay_asymm (a b : DayEntry) (h : ltDisplay a b = true) : ltDisplay b a = false := by
  rw [Bool.eq_false_iff]
  intro hx
  exact DispLtP_asymm a b ((ltDisplay_char a b).mp h) ((ltDisplay_char b a).mp hx)

theorem notDisp_of_false {a b : DayEntry} (h : ltDisplay a b = false) : ¬ DispLtP a b := by
  intro hp
  rw [(ltDisplay_char a b).mpr hp] at h
  exact absurd h (by simp)

theorem ltDisplay_negtrans (x y z : DayEntry) (h1 : ltDisplay y x = false)
    (h2 : ltDisplay z y = false) : ltDisplay z x = false := by
  have h1P : ¬ DispLtP y x := notDisp_of_false h1
  have h2P : ¬ DispLtP z y := notDisp_of_false h2
  rw [Bool.eq_false_iff]
  intro hc
  have hcP : DispLtP z x := (ltDisplay_char z x).mp hc
  by_cases hab : DispLtP x y
  · by_cases hbc : DispLtP y z
    · exact DispLtP_asymm x z (DispLtP_trans x y z hab hbc) hcP
    · have ht : tieD y z := DispLtP_trichot y z hbc h2P
      exact DispLtP_asymm x z (tieD_subst_right x y z ht hab) hcP
  · have htxy : tieD x y := DispLtP_trichot x y hab h1P
    by_cases hbc : DispLtP y z
    · exact DispLtP_asymm x z (tieD_subst_left x y z htxy hbc) hcP
    · have htyz : tieD y z := DispLtP_trichot y z hbc h2P
      have : DispLtP z y := tieD_subst_right z x y htxy hcP
      exact tieD_notLt y z htyz this

theorem ltDisplay_total (a b : DayEntry) (h : a.MemberID ≠ b.MemberID) :
    ltDisplay a b = true ∨ ltDisplay b a = true := by
  by_cases h1 : ltDisplay a b = true
  · exact Or.inl h1
  · by_cases h2 : ltDisplay b a = true
    · exact Or.inr h2
    · have t := DispLtP_trichot a b
        (fun hx => h1 ((ltDisplay_char a b).mpr hx))
        (fun hx => h2 ((ltDisplay_char b a).mpr hx))
      exact absurd t.2.2.2.2 h

theorem ltTs_negtrans (x y z : starRecord) (h1 : ltTs y x = false) (h2 : ltTs z y = false) :
    ltTs z x = false := by
  simp only [ltTs, decide_eq_false_iff_not, not_lt] at h1 h2 ⊢
  omega

theorem ltTs_asymm (x y : starRecord) (h : ltTs x y = true) : ltTs y x = false := by
  simp only [ltTs, decide_eq_true_eq, decide_eq_false_iff_not, not_lt] at h ⊢
  omega

theorem sortBy_ltDisplay_pairwise (l : List DayEntry) :
    (sortBy ltDisplay l).Pairwise (fun x y => ltDisplay y x = false) :=
  pairwise_sortBy ltDisplay ltDisplay_negtrans ltDisplay_asymm l

theorem sortBy_ltTs_pairwise (l : List starRecord) :
    (sortBy ltTs l).Pairwise (fun x y => ltTs y x = false) :=
  pairwise_sortBy ltTs ltTs_negtrans ltTs_asymm l

theorem score_le_of_notLt {x y : DayEntry} (h : ltDisplay y x = false) :
    y.DayScore ≤ x.DayScore := by
  by_contra hc
  push_neg at hc
  exact notDisp_of_false h (Or.inl hc)

theorem sortBy_ltDisplay_scores (l : List DayEntry) :
    (sortBy ltDisplay l).Pairwise (fun x y => y.DayScore ≤ x.DayScore) :=
  (sortBy_ltDisplay_pairwise l).imp (fun h => score_le_of_notLt h)

/-! ## Position assignment lemmas -/

theorem assignPosGo_length (l : List DayEntry) :
    ∀ (k : Nat) (s : Int) (d : Nat), (assignPosGo l k s d).length = l.length := by
  induction l with
  | nil => intro k s d; rfl
  | cons e rest ih =>
    intro k s d
    unfold assignPosGo
    by_cases h : e.DayScore = s
    · simp [h, ih]
    · simp [h, ih]

theorem assignPos_length (l : List DayEntry) : (assignPos l).length = l.length := by
  cases l with
  | nil => rfl
  | cons e rest => simp [assignPos, assignPosGo_length]

theorem assignPosGo_map_erasePos (l : List DayEntry) :
    ∀ (k : Nat) (s : Int) (d : Nat), (assignPosGo l k s d).map erasePos = l.map erasePos := by
  induction l with
  | nil => intro k s d; rfl
  | cons e rest ih =>
    intro k s d
    unfold assignPosGo
    by_cases h : e.DayScore = s
    · simp only [h, if_true, List.map_cons, ih]
      simp [erasePos, h.symm]
    · simp only [h, if_false, List.map_cons, ih]
      simp [erasePos]

theorem assignPos_map_erasePos (l : List DayEntry) :
    (assignPos l).map erasePos = l.map erasePos := by
  cases l with
  | nil => rfl
  | cons e rest =>
    simp only [assignPos, List.map_cons, assignPosGo_map_erasePos]
    simp [erasePos]

theorem assignPosGo_getElem? (l : List DayEntry) :
    ∀ (k : Nat) (s : Int) (d : Nat),
      (∀ e ∈ l, e.DayScore ≤ s) →
      l.Pairwise (fun x y => y.DayScore ≤ x.DayScore) →
      ∀ (i : Nat) (hi : i < l.length),
        (assignPosGo l k s d)[i]? =
          some { l[i] with
                 Pos := if l[i].DayScore = s then d
                        else k + l.findIdx (fun x => x.DayScore == l[i].DayScore) } := by
  induction l with
  | nil => intro k s d _ _ i hi; exact absurd hi (by simp)
  | cons e rest ih =>
    intro k s d hle hpw i hi
    have hered : e.DayScore ≤ s := hle e (List.mem_cons_self e rest)
    have hpw2 := List.pairwise_cons.mp hpw
    cases i with
    | zero =>
      unfold assignPosGo
      by_cases h : e.DayScore = s
      · simp [h, List.findIdx_cons]
      · simp [h, List.findIdx_cons]
    | succ j =>
      have hj : j < rest.length := by simpa using hi
      unfold assignPosGo
      by_cases h : e.DayScore = s
      · rw [if_pos h, List.getElem?_cons_succ]
        rw [ih (k + 1) s d (fun x hx => hle x (List.mem_cons_of_mem e hx)) hpw2.2 j hj]
        simp only [List.getElem_cons_succ]
        by_cases hcase : rest[j].DayScore = s
        · simp [hcase]
        · rw [if_neg hcase, if_neg hcase]
          have hne : (e.DayScore == rest[j].DayScore) = false := by
            simp only [beq_eq_false_iff_ne, ne_eq]
            rw [h]
            exact fun hx => hcase hx.symm
          rw [List.findIdx_cons, hne]
          simp only [cond_false]
          rw [Nat.add_comm (List.findIdx _ rest) 1, ← Nat.add_assoc]
      · rw [if_neg h, List.getElem?_cons_succ]
        have hle2 : ∀ x ∈ rest, x.DayScore ≤ e.DayScore := hpw2.1
        rw [ih (k + 1) e.DayScore k hle2 hpw2.2 j hj]
        simp only [List.getElem_cons_succ]
        by_cases hcase : rest[j].DayScore = e.DayScore
        · rw [if_pos hcase]
          have hns : ¬ rest[j].DayScore = s := by
            rw [hcase]; exact h
          rw [if_neg hns]
          have heq : (e.DayScore == rest[j].DayScore) = true := by
            simp only [beq_iff_eq]
            exact hcase.symm
          rw [List.findIdx_cons, heq]
          simp
        · rw [if_neg hcase]
          have hlt : rest[j].DayScore ≤ e.DayScore := hle2 _ (List.getElem_mem hj)
          have hns : ¬ rest[j].DayScore = s := by
            intro hx
            have hstr : e.DayScore < s := lt_of_le_of_ne hered h
            omega
          rw [if_neg hns]
          have hne : (e.DayScore == rest[j].DayScore) = false := by
            simp only [beq_eq_false_iff_ne, ne_eq]
            exact fun hx => hcase hx.symm
          rw [List.findIdx_cons, hne]
          simp only [cond_false]
          rw [Nat.add_comm (List.findIdx _ rest) 1, ← Nat.add_assoc]

theorem assignPos_getElem? (l : List DayEntry)
    (hpw : l.Pairwise (fun x y => y.DayScore ≤ x.DayScore))
    (i : Nat) (hi : i < l.length) :
    (assignPos l)[i]? =
      some { l[i] with Pos := 1 + l.findIdx (fun x => x.DayScore == l[i].DayScore) } := by
  cases l with
  | nil => exact absurd hi (by simp)
  | cons e rest =>
    have hpw2 := List.pairwise_cons.mp hpw
    cases i with
    | zero =>
      simp [assignPos, List.findIdx_cons]
    | succ j =>
      have hj : j < rest.length := by simpa using hi
      unfold assignPos
      rw [List.getElem?_cons_succ]
      rw [assignPosGo_getElem? rest 2 e.DayScore 1 hpw2.1 hpw2.2 j hj]
      simp only [List.getElem_cons_succ]
      by_cases hcase : rest[j].DayScore = e.DayScore
      · rw [if_pos hcase]
        have heq : (e.DayScore == rest[j].DayScore) = true := by
          simp only [beq_iff_eq]; exact hcase.symm
        rw [List.findIdx_cons, heq]
        simp
      · rw [if_neg hcase]
        have hne : (e.DayScore == rest[j].DayScore) = false := by
          simp only [beq_eq_false_iff_ne, ne_eq]
          exact fun hx => hcase hx.symm
        rw [List.findIdx_cons, hne]
        simp only [cond_false]
        rw [Nat.add_comm (List.findIdx _ rest) 1, ← Nat.add_assoc]

/-! ## Award pass characterization -/

theorem foldl_awardStep (u : Nat × starRecord → DayEntry → DayEntry)
    (hu : ∀ p e, (u p e).MemberID = e.MemberID) :
    ∀ (L : List (Nat × starRecord)) (entries : List DayEntry),
      L.foldl (awardStep u) entries =
        entries.map (fun e =>
          (L.filter (fun p => p.2.memberKey == e.MemberID)).foldl (fun x p => u p x) e) := by
  intro L
  induction L with
  | nil =>
    intro entries
    simp [List.map_id']
  | cons p L ih =>
    intro entries
    rw [List.foldl_cons, ih (awardStep u entries p), awardStep, List.map_map]
    apply List.map_congr_left
    intro e _
    have hid : (if e.MemberID = p.2.memberKey then u p e else e).MemberID = e.MemberID := by
      by_cases h : e.MemberID = p.2.memberKey
      · rw [if_pos h]; exact hu p e
      · rw [if_neg h]
    simp only [Function.comp_apply, hid]
    rw [List.filter_cons]
    by_cases h : e.MemberID = p.2.memberKey
    · have : (p.2.memberKey == e.MemberID) = true := by
        simp only [beq_iff_eq]; exact h.symm
      rw [this]
      simp only [if_true, List.foldl_cons]
      simp [h]
    · have : (p.2.memberKey == e.MemberID) = false := by
        simp only [beq_eq_false_iff_ne, ne_eq]
        exact fun hx => h hx.symm
      rw [this]
      simp [h]

theorem award1_memberID (n : Nat) (rel : Int) (p : Nat × starRecord) (e : DayEntry) :
    (award1 n rel p e).MemberID = e.MemberID := rfl

theorem award2_memberID (n : Nat) (rel : Int) (p : Nat × starRecord) (e : DayEntry) :
    (award2 n rel p e).MemberID = e.MemberID := rfl

theorem starRecords_keys_sublist (members : List (String × Member)) (dk st : String) :
    ((starRecords members dk st).map starRecord.memberKey).Sublist (members.map Prod.fst) := by
  induction members with
  | nil => simp [starRecords]
  | cons km rest ih =>
    cases hd : dayStar km.2 dk st with
    | none =>
      simp only [starRecords, List.filterMap_cons, hd, Option.map_none', List.map_cons]
      exact (ih).cons km.1
    | some s =>
      simp only [starRecords, List.filterMap_cons, hd, Option.map_some', List.map_cons]
      exact (ih).cons₂ km.1

theorem enumFrom_filter_of_not_mem (s : List starRecord) (k : String)
    (h : k ∉ s.map starRecord.memberKey) :
    ∀ j, (enumFrom j s).filter (fun p => p.2.memberKey == k) = [] := by
  induction s with
  | nil => intro j; rfl
  | cons r rest ih =>
    intro j
    have h1 : r.memberKey ≠ k := by
      intro hx
      exact h (by simp [hx])
    have h2 : k ∉ rest.map starRecord.memberKey := by
      intro hx
      exact h (by simp [hx])
    simp only [enumFrom, List.filter_cons]
    have : (r.memberKey == k) = false := by
      simp only [beq_eq_false_iff_ne, ne_eq]; exact h1
    rw [this]
    simp only [Bool.false_eq_true, if_false]
    exact ih h2 (j + 1)

theorem enumFrom_filter_of_getElem (s : List starRecord)
    (hN : (s.map starRecord.memberKey).Nodup) :
    ∀ (i : Nat) (hi : i < s.length) (j : Nat),
      (enumFrom j s).filter (fun p => p.2.memberKey == s[i].memberKey) = [(j + i, s[i])] := by
  induction s with
  | nil => intro i hi j; exact absurd hi (by simp)
  | cons r rest ih =>
    intro i hi j
    have hN2 : r.memberKey ∉ rest.map starRecord.memberKey ∧ (rest.map starRecord.memberKey).Nodup := by
      rw [List.map_cons, List.nodup_cons] at hN
      exact hN
    cases i with
    | zero =>
      simp only [List.getElem_cons_zero, enumFrom, List.filter_cons, beq_self_eq_true, if_true]
      rw [enumFrom_filter_of_not_mem rest r.memberKey hN2.1 (j + 1)]
      simp
    | succ i' =>
      have hi' : i' < rest.length := by simpa using hi
      simp only [List.getElem_cons_succ, enumFrom, List.filter_cons]
      have hmem : rest[i'].memberKey ∈ rest.map starRecord.memberKey :=
        List.mem_map_of_mem _ (List.getElem_mem hi')
      have hne : (r.memberKey == rest[i'].memberKey) = false := by
        simp only [beq_eq_false_iff_ne, ne_eq]
        intro hx
        exact hN2.1 (by rw [hx]; exact hmem)
      rw [hne]
      simp only [Bool.false_eq_true, if_false]
      rw [ih hN2.2 i' hi' (j + 1)]
      congr 1
      congr 1
      omega

theorem partAwardGo_of_not_mem (s : List starRecord) (k : String)
    (h : k ∉ s.map starRecord.memberKey) :
    ∀ (n j : Nat), partAwardGo n j s k = 0 := by
  induction s with
  | nil => intro n j; rfl
  | cons r rest ih =>
    intro n j
    have h1 : r.memberKey ≠ k := fun hx => h (by simp [hx])
    have h2 : k ∉ rest.map starRecord.memberKey := fun hx => h (by simp [hx])
    simp only [partAwardGo, if_neg h1]
    exact ih h2 n (j + 1)

theorem partAwardGo_of_getElem (s : List starRecord)
    (hN : (s.map starRecord.memberKey).Nodup) :
    ∀ (i : Nat) (hi : i < s.length) (n j : Nat),
      partAwardGo n j s s[i].memberKey = (n : Int) - ((j : Int) + (i : Int)) := by
  induction s with
  | nil => intro i hi; exact absurd hi (by simp)
  | cons r rest ih =>
    intro i hi n j
    have hN2 : r.memberKey ∉ rest.map starRecord.memberKey ∧ (rest.map starRecord.memberKey).Nodup := by
      rw [List.map_cons, List.nodup_cons] at hN
      exact hN
    cases i with
    | zero =>
      simp only [List.getElem_cons_zero, partAwardGo, if_pos rfl]
      push_cast
      ring
    | succ i' =>
      have hi' : i' < rest.length := by simpa using hi
      have hmem : rest[i'].memberKey ∈ rest.map starRecord.memberKey :=
        List.mem_map_of_mem _ (List.getElem_mem hi')
      have hne : r.memberKey ≠ rest[i'].memberKey := by
        intro hx
        exact hN2.1 (by rw [hx]; exact hmem)
      simp only [List.getElem_cons_succ, partAwardGo, if_neg hne]
      rw [ih hN2.2 i' hi' n (j + 1)]
      push_cast
      ring

theorem find?_of_not_mem (s : List starRecord) (k : String)
    (h : k ∉ s.map starRecord.memberKey) :
    s.find? (fun r => r.memberKey == k) = none := by
  rw [List.find?_eq_none]
  intro r hr
  simp only [beq_eq_false_iff_ne, ne_eq, Bool.not_eq_true, beq_iff_eq]
  intro hx
  exact h (by rw [← hx]; exact List.mem_map_of_mem _ hr)

theorem find?_of_getElem (s : List starRecord)
    (hN : (s.map starRecord.memberKey).Nodup) :
    ∀ (i : Nat) (hi : i < s.length),
      s.find? (fun r => r.memberKey == s[i].memberKey) = some s[i] := by
  induction s with
  | nil => intro i hi; exact absurd hi (by simp)
  | cons r rest ih =>
    intro i hi
    have hN2 : r.memberKey ∉ rest.map starRecord.memberKey ∧ (rest.map starRecord.memberKey).Nodup := by
      rw [List.map_cons, List.nodup_cons] at hN
      exact hN
    cases i with
    | zero =>
      simp [List.find?]
    | succ i' =>
      have hi' : i' < rest.length := by simpa using hi
      have hmem : rest[i'].memberKey ∈ rest.map starRecord.memberKey :=
        List.mem_map_of_mem _ (List.getElem_mem hi')
      have hne : (r.memberKey == rest[i'].memberKey) = false := by
        simp only [beq_eq_false_iff_ne, ne_eq]
        intro hx
        exact hN2.1 (by rw [hx]; exact hmem)
      simp only [List.getElem_cons_succ, List.find?]
      rw [hne]
      exact ih hN2.2 i' hi'

theorem partAward_not_mem (s : List starRecord) (k : String)
    (h : k ∉ s.map starRecord.memberKey) : partAward s k = 0 :=
  partAwardGo_of_not_mem s k h s.length 0

theorem partAward_getElem (s : List starRecord)
    (hN : (s.map starRecord.memberKey).Nodup) (i : Nat) (hi : i < s.length) :
    partAward s s[i].memberKey = (s.length : Int) - (i : Int) := by
  rw [partAward, partAwardGo_of_getElem s hN i hi s.length 0]
  push_cast
  ring

theorem tsOf_not_mem (s : List starRecord) (k : String)
    (h : k ∉ s.map starRecord.memberKey) : tsOf s k = none := by
  rw [tsOf, find?_of_not_mem s k h]
  rfl

theorem tsOf_getElem (s : List starRecord)
    (hN : (s.map starRecord.memberKey).Nodup) (i : Nat) (hi : i < s.length) :
    tsOf s s[i].memberKey = some s[i].ts := by
  rw [tsOf, find?_of_getElem s hN i hi]
  rfl

theorem onePass_not_mem (s : List starRecord) (u : Nat × starRecord → DayEntry → DayEntry)
    (e : DayEntry) (h : e.MemberID ∉ s.map starRecord.memberKey) :
    ((enumFrom 0 s).filter (fun p => p.2.memberKey == e.MemberID)).foldl (fun x p => u p x) e = e := by
  rw [enumFrom_filter_of_not_mem s e.MemberID h 0]
  rfl

theorem onePass_getElem (s : List starRecord) (hN : (s.map starRecord.memberKey).Nodup)
    (u : Nat × starRecord → DayEntry → DayEntry) (e : DayEntry)
    (i : Nat) (hi : i < s.length) (hk : e.MemberID = s[i].memberKey) :
    ((enumFrom 0 s).filter (fun p => p.2.memberKey == e.MemberID)).foldl (fun x p => u p x) e =
      u (i, s[i]) e := by
  rw [hk, enumFrom_filter_of_getElem s hN i hi 0]
  simp

theorem mem_keys_getElem {s : List starRecord} {k : String}
    (h : k ∈ s.map starRecord.memberKey) :
    ∃ (i : Nat) (hi : i < s.length), s[i].memberKey = k := by
  obtain ⟨r, hr, hrk⟩ := List.mem_map.mp h
  obtain ⟨i, hi, hri⟩ := List.mem_iff_getElem.mp hr
  exact ⟨i, hi, by rw [hri]; exact hrk⟩

theorem entries_after_passes (lb : Leaderboard) (day : Int)
    (hN : (lb.Members.map Prod.fst).Nodup) :
    (enumFrom 0 (sortBy ltTs (starRecords lb.Members (toString day) "2"))).foldl
        (awardStep (award2 (sortBy ltTs (starRecords lb.Members (toString day) "2")).length
          (DayReleaseTime lb day)))
        ((enumFrom 0 (sortBy ltTs (starRecords lb.Members (toString day) "1"))).foldl
          (awardStep (award1 (sortBy ltTs (starRecords lb.Members (toString day) "1")).length
            (DayReleaseTime lb day)))
          (lb.Members.map (initEntry day)))
      = lb.Members.map (scoredEntry lb day) := by
  have hN1 : ((sortBy ltTs (starRecords lb.Members (toString day) "1")).map starRecord.memberKey).Nodup := by
    have hperm := (sortBy_perm ltTs (starRecords lb.Members (toString day) "1")).map starRecord.memberKey
    exact hperm.nodup_iff.mpr (List.Nodup.sublist (starRecords_keys_sublist _ _ _) hN)
  have hN2 : ((sortBy ltTs (starRecords lb.Members (toString day) "2")).map starRecord.memberKey).Nodup := by
    have hperm := (sortBy_perm ltTs (starRecords lb.Members (toString day) "2")).map starRecord.memberKey
    exact hperm.nodup_iff.mpr (List.Nodup.sublist (starRecords_keys_sublist _ _ _) hN)
  rw [foldl_awardStep _ (award1_memberID _ _), foldl_awardStep _ (award2_memberID _ _),
    List.map_map, List.map_map]
  apply List.map_congr_left
  intro km _
  simp only [Function.comp_apply]
  set s1 := sortBy ltTs (starRecords lb.Members (toString day) "1") with hs1
  set s2 := sortBy ltTs (starRecords lb.Members (toString day) "2") with hs2
  set rel := DayReleaseTime lb day with hrel
  have hkinit : (initEntry day km).MemberID = km.1 := rfl
  by_cases h1 : km.1 ∈ s1.map starRecord.memberKey
  · obtain ⟨i1, hi1, hik1⟩ := mem_keys_getElem h1
    have hka : (initEntry day km).MemberID = s1[i1].memberKey := by
      rw [hkinit, hik1]
    rw [onePass_getElem s1 hN1 _ _ i1 hi1 hka]
    have hpa1 : partAward s1 km.1 = (s1.length : Int) - (i1 : Int) := by
      rw [← hik1]; exact partAward_getElem s1 hN1 i1 hi1
    have hts1 : tsOf s1 km.1 = some s1[i1].ts := by
      rw [← hik1]; exact tsOf_getElem s1 hN1 i1 hi1
    have hm1 : (award1 s1.length rel (i1, s1[i1]) (initEntry day km)).MemberID = km.1 := by
      rw [award1_memberID, hkinit]
    by_cases h2 : km.1 ∈ s2.map starRecord.memberKey
    · obtain ⟨i2, hi2, hik2⟩ := mem_keys_getElem h2
      have hka2 : (award1 s1.length rel (i1, s1[i1]) (initEntry day km)).MemberID = s2[i2].memberKey := by
        rw [hm1, hik2]
      rw [onePass_getElem s2 hN2 _ _ i2 hi2 hka2]
      have hpa2 : partAward s2 km.1 = (s2.length : Int) - (i2 : Int) := by
        rw [← hik2]; exact partAward_getElem s2 hN2 i2 hi2
      have hts2 : tsOf s2 km.1 = some s2[i2].ts := by
        rw [← hik2]; exact tsOf_getElem s2 hN2 i2 hi2
      simp only [scoredEntry, sortedPart]
      simp only [← hs1, ← hs2, ← hrel]
      simp only [hpa1, hpa2, hts1, hts2, award1, award2, initEntry, if_pos h1, if_pos h2]
      simp only [DayEntry.mk.injEq]
      and_intros <;>
        first
        | trivial
        | omega
        | exact ⟨s1[i1], List.getElem_mem hi1, hik1⟩
        | exact ⟨s2[i2], List.getElem_mem hi2, hik2⟩
        | exact fun hx => h1 (by obtain ⟨r, hr, hrk⟩ := hx; exact List.mem_map.mpr ⟨r, hr, hrk⟩)
        | exact fun hx => h2 (by obtain ⟨r, hr, hrk⟩ := hx; exact List.mem_map.mpr ⟨r, hr, hrk⟩)
        | (simp [h1]; done)
        | (simp [h2]; done)
        | (simp [h1, h2]; done)
    · rw [onePass_not_mem s2 _ _ (by rw [hm1]; exact h2)]
      have hpa2 : partAward s2 km.1 = 0 := partAward_not_mem s2 km.1 h2
      have hts2 : tsOf s2 km.1 = none := tsOf_not_mem s2 km.1 h2
      simp only [scoredEntry, sortedPart]
      simp only [← hs1, ← hs2, ← hrel]
      simp only [hpa1, hpa2, hts1, hts2, award1, initEntry, if_pos h1, if_neg h2]
      simp only [DayEntry.mk.injEq]
      and_intros <;>
        first
        | trivial
        | omega
        | exact ⟨s1[i1], List.getElem_mem hi1, hik1⟩
        | exact ⟨s2[i2], List.getElem_mem hi2, hik2⟩
        | exact fun hx => h1 (by obtain ⟨r, hr, hrk⟩ := hx; exact List.mem_map.mpr ⟨r, hr, hrk⟩)
        | exact fun hx => h2 (by obtain ⟨r, hr, hrk⟩ := hx; exact List.mem_map.mpr ⟨r, hr, hrk⟩)
        | (simp [h1]; done)
        | (simp [h2]; done)
        | (simp [h1, h2]; done)
  · rw [onePass_not_mem s1 _ _ (by rw [hkinit]; exact h1)]
    have hpa1 : partAward s1 km.1 = 0 := partAward_not_mem s1 km.1 h1
    have hts1 : tsOf s1 km.1 = none := tsOf_not_mem s1 km.1 h1
    by_cases h2 : km.1 ∈ s2.map starRecord.memberKey
    · obtain ⟨i2, hi2, hik2⟩ := mem_keys_getElem h2
      have hka2 : (initEntry day km).MemberID = s2[i2].memberKey := by
        rw [hkinit, hik2]
      rw [onePass_getElem s2 hN2 _ _ i2 hi2 hka2]
      have hpa2 : partAward s2 km.1 = (s2.length : Int) - (i2 : Int) := by
        rw [← hik2]; exact partAward_getElem s2 hN2 i2 hi2
      have hts2 : tsOf s2 km.1 = some s2[i2].ts := by
        rw [← hik2]; exact tsOf_getElem s2 hN2 i2 hi2
      simp only [scoredEntry, sortedPart]
      simp only [← hs1, ← hs2, ← hrel]
      simp only [hpa1, hpa2, hts1, hts2, award2, initEntry, if_neg h1, if_pos h2]
      simp only [DayEntry.mk.injEq]
      and_intros <;>
        first
        | trivial
        | omega
        | exact ⟨s1[i1], List.getElem_mem hi1, hik1⟩
        | exact ⟨s2[i2], List.getElem_mem hi2, hik2⟩
        | exact fun hx => h1 (by obtain ⟨r, hr, hrk⟩ := hx; exact List.mem_map.mpr ⟨r, hr, hrk⟩)
        | exact fun hx => h2 (by obtain ⟨r, hr, hrk⟩ := hx; exact List.mem_map.mpr ⟨r, hr, hrk⟩)
        | (simp [h1]; done)
        | (simp [h2]; done)
        | (simp [h1, h2]; done)
    · rw [onePass_not_mem s2 _ _ (by rw [hkinit]; exact h2)]
      have hpa2 : partAward s2 km.1 = 0 := partAward_not_mem s2 km.1 h2
      have hts2 : tsOf s2 km.1 = none := tsOf_not_mem s2 km.1 h2
      simp only [scoredEntry, sortedPart]
      simp only [← hs1, ← hs2, ← hrel]
      simp only [hpa1, hpa2, hts1, hts2, initEntry, if_neg h1, if_neg h2]
      simp only [DayEntry.mk.injEq]
      and_intros <;>
        first
        | trivial
        | omega
        | exact ⟨s1[i1], List.getElem_mem hi1, hik1⟩
        | exact ⟨s2[i2], List.getElem_mem hi2, hik2⟩
        | exact fun hx => h1 (by obtain ⟨r, hr, hrk⟩ := hx; exact List.mem_map.mpr ⟨r, hr, hrk⟩)
        | exact fun hx => h2 (by obtain ⟨r, hr, hrk⟩ := hx; exact List.mem_map.mpr ⟨r, hr, hrk⟩)
        | (simp [h1]; done)
        | (simp [h2]; done)
        | (simp [h1, h2]; done)

theorem build_eq (lb : Leaderboard) (day : Int)
    (hN : (lb.Members.map Prod.fst).Nodup) :
    BuildDayEntries lb day =
      assignPos (sortBy ltDisplay (lb.Members.map (scoredEntry lb day))) := by
  simp only [BuildDayEntries]
  rw [entries_after_passes lb day hN]

theorem build_eq_raw (lb : Leaderboard) (day : Int) :
    BuildDayEntries lb day =
      assignPos (sortBy ltDisplay
        ((enumFrom 0 (sortBy ltTs (starRecords lb.Members (toString day) "2"))).foldl
          (awardStep (award2 (sortBy ltTs (starRecords lb.Members (toString day) "2")).length
            (DayReleaseTime lb day)))
          ((enumFrom 0 (sortBy ltTs (starRecords lb.Members (toString day) "1"))).foldl
            (awardStep (award1 (sortBy ltTs (starRecords lb.Members (toString day) "1")).length
              (DayReleaseTime lb day)))
            (lb.Members.map (initEntry day))))) := by
  simp only [BuildDayEntries]

theorem map_dayScore_of_erasePos (l1 l2 : List DayEntry)
    (h : l1.map erasePos = l2.map erasePos) :
    l1.map DayEntry.DayScore = l2.map DayEntry.DayScore := by
  have h1 : (l1.map erasePos).map DayEntry.DayScore = (l2.map erasePos).map DayEntry.DayScore := by
    rw [h]
  rw [List.map_map, List.map_map] at h1
  have e1 : DayEntry.DayScore ∘ erasePos = DayEntry.DayScore := by
    funext e
    rfl
  rwa [e1] at h1

theorem map_memberID_of_erasePos (l1 l2 : List DayEntry)
    (h : l1.map erasePos = l2.map erasePos) :
    l1.map DayEntry.MemberID = l2.map DayEntry.MemberID := by
  have h1 : (l1.map erasePos).map DayEntry.MemberID = (l2.map erasePos).map DayEntry.MemberID := by
    rw [h]
  rw [List.map_map, List.map_map] at h1
  have e1 : DayEntry.MemberID ∘ erasePos = DayEntry.MemberID := by
    funext e
    rfl
  rwa [e1] at h1

theorem findIdx_score_congr (l1 : List DayEntry) :
    ∀ (l2 : List DayEntry), l1.map DayEntry.DayScore = l2.map DayEntry.DayScore →
      ∀ (c : Int), l1.findIdx (fun x => x.DayScore == c) = l2.findIdx (fun x => x.DayScore == c) := by
  induction l1 with
  | nil =>
    intro l2 h c
    cases l2 with
    | nil => rfl
    | cons b t2 => exact absurd h (by simp)
  | cons a t1 ih =>
    intro l2 h c
    cases l2 with
    | nil => exact absurd h (by simp)
    | cons b t2 =>
      simp only [List.map_cons, List.cons.injEq] at h
      rw [List.findIdx_cons, List.findIdx_cons, h.1, ih t2 h.2 c]

theorem findIdx_le_of_getElem (l : List α) (p : α → Bool) :
    ∀ (i : Nat) (hi : i < l.length), p l[i] = true → l.findIdx p ≤ i := by
  induction l with
  | nil => intro i hi; exact absurd hi (by simp)
  | cons a t ih =>
    intro i hi hp
    cases i with
    | zero =>
      simp only [List.getElem_cons_zero] at hp
      simp [List.findIdx_cons, hp]
    | succ j =>
      have hj : j < t.length := by simpa using hi
      rw [List.findIdx_cons]
      cases hpa : p a with
      | true => simp
      | false =>
        simp only [cond_false]
        have := ih j hj (by simpa using hp)
        omega

/-- The computed entry list, its score ordering and its position law:
the output of `BuildDayEntries` is sorted by day score descending, and
every position is one more than the index of the first entry carrying the
same day score. Holds for every snapshot, duplicate keys included. -/
theorem build_pos_spec (lb : Leaderboard) (day : Int) :
    (BuildDayEntries lb day).Pairwise (fun x y => y.DayScore ≤ x.DayScore)
    ∧ ∀ (i : Nat) (hi : i < (BuildDayEntries lb day).length),
        (BuildDayEntries lb day)[i].Pos
          = 1 + (BuildDayEntries lb day).findIdx
              (fun x => x.DayScore == (BuildDayEntries lb day)[i].DayScore) := by
  rw [build_eq_raw lb day]
  set e2 := (enumFrom 0 (sortBy ltTs (starRecords lb.Members (toString day) "2"))).foldl
          (awardStep (award2 (sortBy ltTs (starRecords lb.Members (toString day) "2")).length
            (DayReleaseTime lb day)))
          ((enumFrom 0 (sortBy ltTs (starRecords lb.Members (toString day) "1"))).foldl
            (awardStep (award1 (sortBy ltTs (starRecords lb.Members (toString day) "1")).length
              (DayReleaseTime lb day)))
            (lb.Members.map (initEntry day))) with he2
  set sorted := sortBy ltDisplay e2 with hsorted
  have hpwS : sorted.Pairwise (fun x y => y.DayScore ≤ x.DayScore) :=
    sortBy_ltDisplay_scores e2
  have hmapE : (assignPos sorted).map erasePos = sorted.map erasePos :=
    assignPos_map_erasePos sorted
  have hmapS : (assignPos sorted).map DayEntry.DayScore = sorted.map DayEntry.DayScore :=
    map_dayScore_of_erasePos _ _ hmapE
  have hlen : (assignPos sorted).length = sorted.length := assignPos_length sorted
  constructor
  · rw [← List.pairwise_map (f := DayEntry.DayScore) (R := fun x y => y ≤ x), hmapS,
      List.pairwise_map]
    exact hpwS
  · intro i hi
    have hi' : i < sorted.length := by rw [← hlen]; exact hi
    have hget := assignPos_getElem? sorted hpwS i hi'
    have hgetE : (assignPos sorted)[i] =
        { sorted[i] with Pos := 1 + sorted.findIdx (fun x => x.DayScore == sorted[i].DayScore) } := by
      have := List.getElem?_eq_getElem hi
      rw [this] at hget
      exact Option.some.inj hget
    have hscore : (assignPos sorted)[i].DayScore = sorted[i].DayScore := by
      rw [hgetE]
    rw [hgetE]
    simp only
    rw [hscore] at *
    rw [findIdx_score_congr (assignPos sorted) sorted hmapS]

/-! ## Claims -/

theorem pos_law_of_spec (es : List DayEntry)
    (hpw : es.Pairwise (fun x y => y.DayScore ≤ x.DayScore))
    (hfor : ∀ (i : Nat) (hi : i < es.length),
      es[i].Pos = 1 + es.findIdx (fun x => x.DayScore == es[i].DayScore))
    (i j : Nat) (hi : i < es.length) (hj : j < es.length) :
    es[i].Pos = 1 + es.findIdx (fun x => x.DayScore == es[i].DayScore)
    ∧ (es[i].Pos = es[j].Pos ↔ es[i].DayScore = es[j].DayScore)
    ∧ (es[j].DayScore < es[i].DayScore → es[i].Pos < es[j].Pos) := by
  have hfindle : ∀ (a : Nat) (ha : a < es.length),
      es.findIdx (fun x => x.DayScore == es[a].DayScore) ≤ a := by
    intro a ha
    exact findIdx_le_of_getElem es _ a ha (by simp)
  have hfindsc : ∀ (a : Nat) (ha : a < es.length)
      (hw : es.findIdx (fun x => x.DayScore == es[a].DayScore) < es.length),
      es[es.findIdx (fun x => x.DayScore == es[a].DayScore)].DayScore = es[a].DayScore := by
    intro a ha hw
    have := @List.findIdx_getElem _ (fun x => x.DayScore == es[a].DayScore) es hw
    simpa using this
  have hfind : ∀ (a : Nat) (ha : a < es.length),
      es.findIdx (fun x => x.DayScore == es[a].DayScore) ≤ a ∧
      es.findIdx (fun x => x.DayScore == es[a].DayScore) < es.length := by
    intro a ha
    have hle := hfindle a ha
    exact ⟨hle, lt_of_le_of_lt hle ha⟩
  have hgc : ∀ (a b : Nat), a = b → ∀ (ha : a < es.length) (hb : b < es.length),
      es[a] = es[b] := by
    intro a b h ha hb
    subst h
    rfl
  have hmono : ∀ (a b : Nat) (ha : a < es.length) (hb : b < es.length), a ≤ b →
      es[b].DayScore ≤ es[a].DayScore := by
    intro a b ha hb hab
    rcases Nat.lt_or_ge a b with h | h
    · exact List.pairwise_iff_getElem.mp hpw a b ha hb h
    · have : a = b := by omega
      subst this
      exact le_refl _
  refine ⟨hfor i hi, ?_, ?_⟩
  · constructor
    · intro hpos
      rw [hfor i hi, hfor j hj] at hpos
      have heq : es.findIdx (fun x => x.DayScore == es[i].DayScore)
          = es.findIdx (fun x => x.DayScore == es[j].DayScore) := by omega
      obtain ⟨hle1, hlt1⟩ := hfind i hi
      obtain ⟨hle2, hlt2⟩ := hfind j hj
      rw [← hfindsc i hi hlt1, ← hfindsc j hj hlt2]
      exact congrArg DayEntry.DayScore (hgc _ _ heq hlt1 hlt2)
    · intro hsc
      rw [hfor i hi, hfor j hj, hsc]
  · intro hlt
    rw [hfor i hi, hfor j hj]
    obtain ⟨hle1, hlt1⟩ := hfind i hi
    obtain ⟨hle2, hlt2⟩ := hfind j hj
    have hsc1 := hfindsc i hi hlt1
    have hsc2 := hfindsc j hj hlt2
    have hne : es.findIdx (fun x => x.DayScore == es[i].DayScore)
        ≠ es.findIdx (fun x => x.DayScore == es[j].DayScore) := by
      intro he
      have hx : es[i].DayScore = es[j].DayScore := by
        rw [← hsc1, ← hsc2]
        exact congrArg DayEntry.DayScore (hgc _ _ he hlt1 hlt2)
      omega
    have hord : ¬ (es.findIdx (fun x => x.DayScore == es[j].DayScore)
        ≤ es.findIdx (fun x => x.DayScore == es[i].DayScore)) := by
      intro hle
      have := hmono _ _ hlt2 hlt1 hle
      rw [hsc1, hsc2] at this
      omega
    omega

/-- C1: in every sequence returned by `BuildDayEntries`, each entry's rank
position `Pos` equals the 1-based ordinal index of the first entry in the
display order with the same day score; two entries carry an identical
`Pos` if and only if their day scores are equal; and an entry with
strictly higher day score carries a strictly smaller `Pos`. -/
theorem buildDayEntries_pos_law (lb : Leaderboard) (day : Int)
    (i j : Nat) (hi : i < (BuildDayEntries lb day).length)
    (hj : j < (BuildDayEntries lb day).length) :
    (BuildDayEntries lb day)[i].Pos
        = 1 + (BuildDayEntries lb day).findIdx
            (fun x => x.DayScore == (BuildDayEntries lb day)[i].DayScore)
    ∧ ((BuildDayEntries lb day)[i].Pos = (BuildDayEntries lb day)[j].Pos
        ↔ (BuildDayEntries lb day)[i].DayScore = (BuildDayEntries lb day)[j].DayScore)
    ∧ ((BuildDayEntries lb day)[j].DayScore < (BuildDayEntries lb day)[i].DayScore
        → (BuildDayEntries lb day)[i].Pos < (BuildDayEntries lb day)[j].Pos) := by
  obtain ⟨hpw, hfor⟩ := build_pos_spec lb day
  exact pos_law_of_spec (BuildDayEntries lb day) hpw hfor i j hi hj

/-- Witness for C1 on the concrete fixture `lbW` at day 1 (a tie at
score 2 between indices 0 and 1, and a strictly lower score at index 2). -/
theorem buildDayEntries_pos_law_witness :
    2 < (BuildDayEntries lbW 1).length
    ∧ ((BuildDayEntries lbW 1)[1].Pos = (BuildDayEntries lbW 1)[0].Pos
        ↔ (BuildDayEntries lbW 1)[1].DayScore = (BuildDayEntries lbW 1)[0].DayScore)
    ∧ ((BuildDayEntries lbW 1)[2].DayScore < (BuildDayEntries lbW 1)[0].DayScore
        → (BuildDayEntries lbW 1)[0].Pos < (BuildDayEntries lbW 1)[2].Pos) := by
  have h0 : 0 < (BuildDayEntries lbW 1).length := by decide
  have h1 : 1 < (BuildDayEntries lbW 1).length := by decide
  have h2 : 2 < (BuildDayEntries lbW 1).length := by decide
  exact ⟨h2, (buildDayEntries_pos_law lbW 1 1 0 h1 h0).2.1,
    (buildDayEntries_pos_law lbW 1 0 2 h0 h2).2.2⟩

theorem erasePos_DispLtP (a b : DayEntry) : DispLtP (erasePos a) (erasePos b) ↔ DispLtP a b :=
  Iff.rfl

theorem build_erase_perm (lb : Leaderboard) (day : Int)
    (hN : (lb.Members.map Prod.fst).Nodup) :
    ((BuildDayEntries lb day).map erasePos).Perm
      ((lb.Members.map (scoredEntry lb day)).map erasePos) := by
  rw [build_eq lb day hN, assignPos_map_erasePos]
  exact (sortBy_perm ltDisplay _).map erasePos

/-- C3: the sequence returned by `BuildDayEntries` is sorted by exactly the
specified lexicographic order (`DispLtP`: day score descending, stars-today
descending, part-2 time ascending only for two-star ties, then name, then
member key): the code's comparator coincides with that order, no later
entry precedes an earlier one in it, and the finer ordering never changes
an assigned rank position, which depends on the day score alone. -/
theorem buildDayEntries_display_sorted (lb : Leaderboard) (day : Int) :
    (∀ a b : DayEntry, ltDisplay a b = true ↔ DispLtP a b)
    ∧ (BuildDayEntries lb day).Pairwise (fun a b => ¬ DispLtP b a)
    ∧ (∀ (i j : Nat) (hi : i < (BuildDayEntries lb day).length)
        (hj : j < (BuildDayEntries lb day).length),
        (BuildDayEntries lb day)[i].DayScore = (BuildDayEntries lb day)[j].DayScore →
        (BuildDayEntries lb day)[i].Pos = (BuildDayEntries lb day)[j].Pos) := by
  refine ⟨ltDisplay_char, ?_, ?_⟩
  · rw [build_eq_raw lb day]
    set e2 := (enumFrom 0 (sortBy ltTs (starRecords lb.Members (toString day) "2"))).foldl
            (awardStep (award2 (sortBy ltTs (starRecords lb.Members (toString day) "2")).length
              (DayReleaseTime lb day)))
            ((enumFrom 0 (sortBy ltTs (starRecords lb.Members (toString day) "1"))).foldl
              (awardStep (award1 (sortBy ltTs (starRecords lb.Members (toString day) "1")).length
                (DayReleaseTime lb day)))
              (lb.Members.map (initEntry day))) with he2
    set sorted := sortBy ltDisplay e2 with hsorted
    have hpwS : sorted.Pairwise (fun a b => ¬ DispLtP b a) :=
      (sortBy_ltDisplay_pairwise e2).imp (fun h => notDisp_of_false h)
    have hmapE : (assignPos sorted).map erasePos = sorted.map erasePos :=
      assignPos_map_erasePos sorted
    have h1 : ((sorted.map erasePos)).Pairwise (fun a b => ¬ DispLtP b a) := by
      refine List.Pairwise.map erasePos ?_ hpwS
      intro a b h
      exact h
    rw [← hmapE] at h1
    have h2 := List.pairwise_map.mp h1
    exact h2.imp (fun {a b} h => h)
  · intro i j hi hj hsc
    obtain ⟨hpw, hfor⟩ := build_pos_spec lb day
    exact (pos_law_of_spec (BuildDayEntries lb day) hpw hfor i j hi hj).2.1.mpr hsc

/-- Witness for C3 on the fixture `lbW` at day 1: the tied-score pair at
indices 0 and 1 shares its rank position. -/
theorem buildDayEntries_display_sorted_witness :
    (BuildDayEntries lbW 1).Pairwise (fun a b => ¬ DispLtP b a)
    ∧ (BuildDayEntries lbW 1)[0].Pos = (BuildDayEntries lbW 1)[1].Pos := by
  have h0 : 0 < (BuildDayEntries lbW 1).length := by decide
  have h1 : 1 < (BuildDayEntries lbW 1).length := by decide
  have hsc : (BuildDayEntries lbW 1)[0].DayScore = (BuildDayEntries lbW 1)[1].DayScore := by
    have h : ((BuildDayEntries lbW 1).get ⟨0, by decide⟩).DayScore
        = ((BuildDayEntries lbW 1).get ⟨1, by decide⟩).DayScore := by decide
    exact h
  exact ⟨(buildDayEntries_display_sorted lbW 1).2.1,
    (buildDayEntries_display_sorted lbW 1).2.2 0 1 h0 h1 hsc⟩

theorem assoc_unique (l : List (String × Member)) (h : (l.map Prod.fst).Nodup)
    (k : String) (m m2 : Member) (h1 : (k, m) ∈ l) (h2 : (k, m2) ∈ l) : m = m2 := by
  induction l with
  | nil => exact absurd h1 (by simp)
  | cons km rest ih =>
    rw [List.map_cons, List.nodup_cons] at h
    rcases List.mem_cons.mp h1 with e1 | e1 <;> rcases List.mem_cons.mp h2 with e2 | e2
    · rw [← e1] at e2
      exact congrArg Prod.snd e2.symm
    · exfalso
      apply h.1
      rw [← (congrArg Prod.fst e1)]
      exact List.mem_map.mpr ⟨(k, m2), e2, rfl⟩
    · exfalso
      apply h.1
      rw [← (congrArg Prod.fst e2)]
      exact List.mem_map.mpr ⟨(k, m), e1, rfl⟩
    · exact ih h.2 e1 e2

theorem mem_starRecords_keys (members : List (String × Member)) (dk st : String) (k : String) :
    k ∈ (starRecords members dk st).map starRecord.memberKey ↔
      ∃ m, (k, m) ∈ members ∧ (dayStar m dk st).isSome := by
  constructor
  · intro h
    obtain ⟨r, hr, hrk⟩ := List.mem_map.mp h
    obtain ⟨km, hkm, hf⟩ := List.mem_filterMap.mp hr
    cases hd : dayStar km.2 dk st with
    | none => rw [hd] at hf; exact absurd hf (by simp)
    | some s =>
      rw [hd] at hf
      simp only [Option.map_some', Option.some.injEq] at hf
      refine ⟨km.2, ?_, by rw [hd]; rfl⟩
      have : km.1 = k := by rw [← hrk, ← hf]
      rw [← this]
      exact hkm
  · rintro ⟨m, hm, hs⟩
    cases hd : dayStar m dk st with
    | none => rw [hd] at hs; exact absurd hs (by simp)
    | some s =>
      refine List.mem_map.mpr ⟨⟨k, s.GetStarTs⟩, ?_, rfl⟩
      refine List.mem_filterMap.mpr ⟨(k, m), hm, ?_⟩
      rw [hd]
      rfl

theorem build_memberID_perm (lb : Leaderboard) (day : Int)
    (hN : (lb.Members.map Prod.fst).Nodup) :
    ((BuildDayEntries lb day).map DayEntry.MemberID).Perm (lb.Members.map Prod.fst) := by
  rw [build_eq lb day hN]
  have h1 : (assignPos (sortBy ltDisplay (lb.Members.map (scoredEntry lb day)))).map
      DayEntry.MemberID = (sortBy ltDisplay (lb.Members.map (scoredEntry lb day))).map
      DayEntry.MemberID :=
    map_memberID_of_erasePos _ _ (assignPos_map_erasePos _)
  rw [h1]
  have h2 : ((sortBy ltDisplay (lb.Members.map (scoredEntry lb day))).map
      DayEntry.MemberID).Perm ((lb.Members.map (scoredEntry lb day)).map DayEntry.MemberID) :=
    (sortBy_perm ltDisplay _).map DayEntry.MemberID
  refine h2.trans ?_
  rw [List.map_map]
  have h3 : (DayEntry.MemberID ∘ scoredEntry lb day) = Prod.fst := by
    funext km
    rfl
  rw [h3]

/-- C4: for every snapshot with unique member keys and every queried day,
`BuildDayEntries` returns exactly one entry per member of the snapshot's
member map (the multiset of entry keys is the multiset of member keys),
and a member with no star-1 and no star-2 record for the day — including
one whose completion map lacks the day key — still receives an entry, with
day score 0 and zero stars, ranked alongside everyone else. -/
theorem buildDayEntries_one_entry_per_member (lb : Leaderboard) (day : Int)
    (hN : (lb.Members.map Prod.fst).Nodup) :
    ((BuildDayEntries lb day).map DayEntry.MemberID).Perm (lb.Members.map Prod.fst)
    ∧ (BuildDayEntries lb day).length = lb.Members.length
    ∧ (∀ (k : String) (m : Member), (k, m) ∈ lb.Members →
        dayStar m (toString day) "1" = none → dayStar m (toString day) "2" = none →
        ∃ e ∈ BuildDayEntries lb day, e.MemberID = k ∧ e.DayScore = 0 ∧ e.StarsToday = 0) := by
  refine ⟨build_memberID_perm lb day hN, ?_, ?_⟩
  · have := (build_memberID_perm lb day hN).length_eq
    simpa using this
  · intro k m hmem hd1 hd2
    have hnot1 : k ∉ (starRecords lb.Members (toString day) "1").map starRecord.memberKey := by
      intro hx
      obtain ⟨m2, hm2, hs2⟩ := (mem_starRecords_keys _ _ _ _).mp hx
      rw [← assoc_unique lb.Members hN k m m2 hmem hm2, hd1] at hs2
      exact absurd hs2 (by simp)
    have hnot2 : k ∉ (starRecords lb.Members (toString day) "2").map starRecord.memberKey := by
      intro hx
      obtain ⟨m2, hm2, hs2⟩ := (mem_starRecords_keys _ _ _ _).mp hx
      rw [← assoc_unique lb.Members hN k m m2 hmem hm2, hd2] at hs2
      exact absurd hs2 (by simp)
    have hnotS1 : k ∉ (sortedPart lb day "1").map starRecord.memberKey := by
      intro hx
      exact hnot1 (((sortBy_perm ltTs _).map starRecord.memberKey).mem_iff.mp hx)
    have hnotS2 : k ∉ (sortedPart lb day "2").map starRecord.memberKey := by
      intro hx
      exact hnot2 (((sortBy_perm ltTs _).map starRecord.memberKey).mem_iff.mp hx)
    have hscored : erasePos (scoredEntry lb day (k, m)) ∈
        ((lb.Members.map (scoredEntry lb day)).map erasePos) :=
      List.mem_map_of_mem _ (List.mem_map_of_mem _ hmem)
    have hmemE : erasePos (scoredEntry lb day (k, m)) ∈
        ((BuildDayEntries lb day).map erasePos) :=
      (build_erase_perm lb day hN).mem_iff.mpr hscored
    obtain ⟨e, he, hee⟩ := List.mem_map.mp hmemE
    refine ⟨e, he, ?_, ?_, ?_⟩
    · have := congrArg DayEntry.MemberID hee
      simp only [erasePos] at this
      rw [this]
      rfl
    · have := congrArg DayEntry.DayScore hee
      simp only [erasePos] at this
      rw [this]
      simp only [scoredEntry]
      rw [partAward_not_mem _ _ hnotS1, partAward_not_mem _ _ hnotS2]
      ring
    · have := congrArg DayEntry.StarsToday hee
      simp only [erasePos] at this
      rw [this]
      simp only [scoredEntry]
      rw [if_neg hnotS1, if_neg hnotS2]

/-- Witness for C4 on the fixture `lbW` at day 1: member "c" has no
records and appears with a zero entry. -/
theorem buildDayEntries_one_entry_per_member_witness :
    ((BuildDayEntries lbW 1).map DayEntry.MemberID).Perm (lbW.Members.map Prod.fst)
    ∧ ∃ e ∈ BuildDayEntries lbW 1, e.MemberID = "c" ∧ e.DayScore = 0 ∧ e.StarsToday = 0 := by
  have h := buildDayEntries_one_entry_per_member lbW 1 (by decide)
  exact ⟨h.1, h.2.2 "c" wCarol (by decide) (by decide) (by decide)⟩

theorem mem_build_scored (lb : Leaderboard) (day : Int)
    (hN : (lb.Members.map Prod.fst).Nodup) :
    ∀ e ∈ BuildDayEntries lb day,
      ∃ km ∈ lb.Members, erasePos e = erasePos (scoredEntry lb day km) := by
  intro e he
  have h1 : erasePos e ∈ (BuildDayEntries lb day).map erasePos := List.mem_map_of_mem _ he
  have h2 := (build_erase_perm lb day hN).mem_iff.mp h1
  obtain ⟨x, hx, hxe⟩ := List.mem_map.mp h2
  obtain ⟨km, hkm, hkx⟩ := List.mem_map.mp hx
  refine ⟨km, hkm, ?_⟩
  rw [← hxe, hkx]

theorem mem_keys_iff_member (lb : Leaderboard) (dk st : String)
    (hN : (lb.Members.map Prod.fst).Nodup) (k : String) (m : Member)
    (hmem : (k, m) ∈ lb.Members) :
    (k ∈ (starRecords lb.Members dk st).map starRecord.memberKey) ↔
      (dayStar m dk st).isSome := by
  rw [mem_starRecords_keys]
  constructor
  · rintro ⟨m2, hm2, hs⟩
    rwa [← assoc_unique lb.Members hN k m m2 hmem hm2] at hs
  · intro h
    exact ⟨m, hmem, h⟩

/-- C10: every entry of `BuildDayEntries` satisfies
`StarsToday = (HasPart1 ? 1 : 0) + (HasPart2 ? 1 : 0)` (hence at most 2),
and the part flags hold exactly when the entry's member carries the
corresponding star-index record ("1" or "2") for the queried day. -/
theorem buildDayEntries_stars_flags (lb : Leaderboard) (day : Int)
    (hN : (lb.Members.map Prod.fst).Nodup) :
    ∀ e ∈ BuildDayEntries lb day,
      e.StarsToday = (if e.HasPart1 then 1 else 0) + (if e.HasPart2 then 1 else 0)
      ∧ e.StarsToday ≤ 2
      ∧ (∀ m : Member, (e.MemberID, m) ∈ lb.Members →
          e.HasPart1 = (dayStar m (toString day) "1").isSome
          ∧ e.HasPart2 = (dayStar m (toString day) "2").isSome) := by
  intro e he
  obtain ⟨km, hkm, hee⟩ := mem_build_scored lb day hN e he
  have hst : e.StarsToday = (scoredEntry lb day km).StarsToday := by
    have := congrArg DayEntry.StarsToday hee
    simpa [erasePos] using this
  have hp1 : e.HasPart1 = (scoredEntry lb day km).HasPart1 := by
    have := congrArg DayEntry.HasPart1 hee
    simpa [erasePos] using this
  have hp2 : e.HasPart2 = (scoredEntry lb day km).HasPart2 := by
    have := congrArg DayEntry.HasPart2 hee
    simpa [erasePos] using this
  have hid : e.MemberID = km.1 := by
    have := congrArg DayEntry.MemberID hee
    simpa [erasePos, scoredEntry] using this
  have hiff1 : (km.1 ∈ (sortedPart lb day "1").map starRecord.memberKey) ↔
      (dayStar km.2 (toString day) "1").isSome := by
    have hperm := (((sortBy_perm ltTs (starRecords lb.Members (toString day) "1")).map
      starRecord.memberKey).mem_iff (a := km.1))
    simp only [sortedPart]
    exact hperm.trans (mem_keys_iff_member lb (toString day) "1" hN km.1 km.2
      (by simpa using hkm))
  have hiff2 : (km.1 ∈ (sortedPart lb day "2").map starRecord.memberKey) ↔
      (dayStar km.2 (toString day) "2").isSome := by
    have hperm := (((sortBy_perm ltTs (starRecords lb.Members (toString day) "2")).map
      starRecord.memberKey).mem_iff (a := km.1))
    simp only [sortedPart]
    exact hperm.trans (mem_keys_iff_member lb (toString day) "2" hN km.1 km.2
      (by simpa using hkm))
  refine ⟨?_, ?_, ?_⟩
  · rw [hst, hp1, hp2]
    simp only [scoredEntry]
    by_cases h1 : km.1 ∈ (sortedPart lb day "1").map starRecord.memberKey <;>
      by_cases h2 : km.1 ∈ (sortedPart lb day "2").map starRecord.memberKey <;>
      simp [h1, h2]
  · rw [hst]
    simp only [scoredEntry]
    split_ifs <;> omega
  · intro m hm
    rw [hid] at hm
    have hmq : m = km.2 := assoc_unique lb.Members hN km.1 m km.2 hm (by simpa using hkm)
    subst hmq
    constructor
    · rw [hp1]
      simp only [scoredEntry]
      by_cases h1 : km.1 ∈ (sortedPart lb day "1").map starRecord.memberKey
      · simp [h1, hiff1.mp h1]
      · have hno : (dayStar km.2 (toString day) "1").isSome = false := by
          cases hval : (dayStar km.2 (toString day) "1").isSome
          · rfl
          · exact absurd hval (fun hx => h1 (hiff1.mpr hx))
        simp [h1, hno]
    · rw [hp2]
      simp only [scoredEntry]
      by_cases h2 : km.1 ∈ (sortedPart lb day "2").map starRecord.memberKey
      · simp [h2, hiff2.mp h2]
      · have hno : (dayStar km.2 (toString day) "2").isSome = false := by
          cases hval : (dayStar km.2 (toString day) "2").isSome
          · rfl
          · exact absurd hval (fun hx => h2 (hiff2.mpr hx))
        simp [h2, hno]

/-- Witness for C10 on the fixture `lbW` at day 1, instantiated at the
first entry of the output. -/
theorem buildDayEntries_stars_flags_witness :
    ∃ e ∈ BuildDayEntries lbW 1,
      e.StarsToday = (if e.HasPart1 then 1 else 0) + (if e.HasPart2 then 1 else 0)
      ∧ e.StarsToday ≤ 2 := by
  have hlen : 0 < (BuildDayEntries lbW 1).length := by decide
  have hmem : (BuildDayEntries lbW 1)[0] ∈ BuildDayEntries lbW 1 := List.getElem_mem hlen
  have h := buildDayEntries_stars_flags lbW 1 (by decide) _ hmem
  exact ⟨(BuildDayEntries lbW 1)[0], hmem, h.1, h.2.1⟩

theorem map_untouched (key : String) (u : DayEntry → DayEntry) :
    ∀ (t : List DayEntry), t.countP (fun e => e.MemberID == key) = 0 →
      (t.map (fun e => if e.MemberID = key then u e else e)) = t := by
  intro t
  induction t with
  | nil => intro _; rfl
  | cons e t ih =>
    intro h
    rw [List.countP_cons] at h
    have he : ¬ e.MemberID = key := by
      intro hx
      simp [hx] at h
    rw [List.map_cons, if_neg he, ih (by omega)]

theorem awardStep_sum (u : Nat × starRecord → DayEntry → DayEntry) (amt : Nat × starRecord → Int)
    (hscore : ∀ p e, (u p e).DayScore = e.DayScore + amt p) :
    ∀ (entries : List DayEntry) (p : Nat × starRecord),
      entries.countP (fun e => e.MemberID == p.2.memberKey) = 1 →
      ((awardStep u entries p).map DayEntry.DayScore).sum
        = (entries.map DayEntry.DayScore).sum + amt p := by
  intro entries
  induction entries with
  | nil => intro p h; simp at h
  | cons e t ih =>
    intro p h
    rw [List.countP_cons] at h
    by_cases hm : e.MemberID = p.2.memberKey
    · have ht0 : t.countP (fun e => e.MemberID == p.2.memberKey) = 0 := by
        simp only [hm, beq_self_eq_true, if_true] at h
        omega
      simp only [awardStep, List.map_cons, if_pos hm]
      rw [map_untouched p.2.memberKey (u p) t ht0, List.sum_cons, List.sum_cons, hscore]
      ring
    · have ht1 : t.countP (fun e => e.MemberID == p.2.memberKey) = 1 := by
        have hbf : (e.MemberID == p.2.memberKey) = false := by
          simp [hm]
        rw [hbf] at h
        simpa using h
      simp only [awardStep, List.map_cons, if_neg hm]
      have := ih p ht1
      simp only [awardStep] at this
      rw [List.sum_cons, List.sum_cons, this]
      ring

theorem awardStep_memberID_map (u : Nat × starRecord → DayEntry → DayEntry)
    (hid : ∀ p e, (u p e).MemberID = e.MemberID) (entries : List DayEntry)
    (p : Nat × starRecord) :
    (awardStep u entries p).map DayEntry.MemberID = entries.map DayEntry.MemberID := by
  simp only [awardStep, List.map_map]
  apply List.map_congr_left
  intro e _
  simp only [Function.comp_apply]
  by_cases hm : e.MemberID = p.2.memberKey
  · rw [if_pos hm, hid]
  · rw [if_neg hm]

theorem countP_key_of_map (l : List DayEntry) (k : String) :
    l.countP (fun e => e.MemberID == k)
      = (l.map DayEntry.MemberID).countP (fun s => s == k) := by
  rw [List.countP_map]
  rfl

theorem pass_sum (u : Nat × starRecord → DayEntry → DayEntry) (amt : Nat × starRecord → Int)
    (hscore : ∀ p e, (u p e).DayScore = e.DayScore + amt p)
    (hid : ∀ p e, (u p e).MemberID = e.MemberID) :
    ∀ (L : List (Nat × starRecord)) (entries : List DayEntry),
      (∀ p ∈ L, entries.countP (fun e => e.MemberID == p.2.memberKey) = 1) →
      ((L.foldl (awardStep u) entries).map DayEntry.DayScore).sum
        = (entries.map DayEntry.DayScore).sum + (L.map amt).sum := by
  intro L
  induction L with
  | nil => intro entries _; simp
  | cons p L ih =>
    intro entries hcount
    rw [List.foldl_cons]
    have hstep : (awardStep u entries p).map DayEntry.MemberID
        = entries.map DayEntry.MemberID := awardStep_memberID_map u hid entries p
    have hcount2 : ∀ q ∈ L, (awardStep u entries p).countP
        (fun e => e.MemberID == q.2.memberKey) = 1 := by
      intro q hq
      rw [countP_key_of_map, hstep, ← countP_key_of_map]
      exact hcount q (List.mem_cons_of_mem p hq)
    rw [ih (awardStep u entries p) hcount2,
      awardStep_sum u amt hscore entries p (hcount p (List.mem_cons_self p L)),
      List.map_cons, List.sum_cons]
    ring

theorem foldl_awardStep_memberID (u : Nat × starRecord → DayEntry → DayEntry)
    (hid : ∀ p e, (u p e).MemberID = e.MemberID) :
    ∀ (L : List (Nat × starRecord)) (entries : List DayEntry),
      (L.foldl (awardStep u) entries).map DayEntry.MemberID
        = entries.map DayEntry.MemberID := by
  intro L
  induction L with
  | nil => intro entries; rfl
  | cons p L ih =>
    intro entries
    rw [List.foldl_cons, ih, awardStep_memberID_map u hid]

theorem enumFrom_snd_mem : ∀ (s : List starRecord) (j : Nat) (p : Nat × starRecord),
    p ∈ enumFrom j s → p.2 ∈ s := by
  intro s
  induction s with
  | nil => intro j p h; exact absurd h (by simp [enumFrom])
  | cons r t ih =>
    intro j p h
    rcases List.mem_cons.mp h with h | h
    · rw [h]
      exact List.mem_cons_self r t
    · exact List.mem_cons_of_mem r (ih (j + 1) p h)

theorem enumFrom_sum_amt (n : Nat) :
    ∀ (s : List starRecord) (j : Nat), j + s.length = n →
      ((enumFrom j s).map (fun p => (n : Int) - (p.1 : Int))).sum
        = (triangular (n - j) : Int) := by
  intro s
  induction s with
  | nil =>
    intro j h
    simp only [List.length_nil, Nat.add_zero] at h
    subst h
    simp [enumFrom, triangular, Nat.sub_self]
  | cons r t ih =>
    intro j h
    simp only [List.length_cons] at h
    have hlt : j < n := by omega
    obtain ⟨m, hm⟩ : ∃ m, n - j = m + 1 := ⟨n - j - 1, by omega⟩
    have hm2 : n - (j + 1) = m := by omega
    simp only [enumFrom, List.map_cons, List.sum_cons]
    rw [ih (j + 1) (by omega), hm2, hm]
    simp only [triangular]
    push_cast
    omega

theorem two_triangular (n : Nat) : 2 * triangular n = n * (n + 1) := by
  induction n with
  | zero => rfl
  | succ m ih =>
    simp only [triangular]
    calc 2 * (triangular m + (m + 1)) = 2 * triangular m + 2 * (m + 1) := by ring
    _ = m * (m + 1) + 2 * (m + 1) := by rw [ih]
    _ = (m + 1) * (m + 1 + 1) := by ring

theorem triangular_eq (n : Nat) : triangular n = n * (n + 1) / 2 := by
  have := two_triangular n
  omega

theorem countP_eq_one_of_nodup (K : List String) (hN : K.Nodup) (k : String) (h : k ∈ K) :
    K.countP (fun s => s == k) = 1 := by
  induction K with
  | nil => exact absurd h (by simp)
  | cons a K ih =>
    rw [List.nodup_cons] at hN
    rw [List.countP_cons]
    by_cases ha : a = k
    · have h0 : K.countP (fun s => s == k) = 0 := by
        rw [List.countP_eq_zero]
        intro b hb
        simp only [beq_eq_false_iff_ne, ne_eq, Bool.not_eq_true, beq_iff_eq]
        intro hx
        rw [← ha] at hx
        exact hN.1 (hx ▸ hb)
      simp [h0, ha]
    · have hk : k ∈ K := by
        rcases List.mem_cons.mp h with hx | hx
        · exact absurd hx.symm ha
        · exact hx
      simp [ih hN.2 hk, ha]

theorem length_filterMap_eq_countP (f : α → Option β) :
    ∀ (l : List α), (l.filterMap f).length = l.countP (fun a => (f a).isSome) := by
  intro l
  induction l with
  | nil => rfl
  | cons a l ih =>
    rw [List.filterMap_cons, List.countP_cons]
    cases hf : f a with
    | none => simp [ih, hf]
    | some b => simp [ih, hf]

theorem sorted_keys_nodup (lb : Leaderboard) (day : Int) (st : String)
    (hN : (lb.Members.map Prod.fst).Nodup) :
    ((sortedPart lb day st).map starRecord.memberKey).Nodup := by
  simp only [sortedPart]
  have hperm := (sortBy_perm ltTs (starRecords lb.Members (toString day) st)).map
    starRecord.memberKey
  exact hperm.nodup_iff.mpr (List.Nodup.sublist (starRecords_keys_sublist _ _ _) hN)

/-- C2: per part, with `n` the number of members holding that part's star
for the day, the sorted record list has length `n`, its `i`-th earliest
member is awarded `n - i` points, every entry's day score is the sum of
its two part awards, and the total of all day scores is the sum of the
two triangular numbers `n (n + 1) / 2`. -/
theorem buildDayEntries_triangular_sum (lb : Leaderboard) (day : Int)
    (hN : (lb.Members.map Prod.fst).Nodup) :
    (sortedPart lb day "1").length
        = lb.Members.countP (fun km => (dayStar km.2 (toString day) "1").isSome)
    ∧ (sortedPart lb day "2").length
        = lb.Members.countP (fun km => (dayStar km.2 (toString day) "2").isSome)
    ∧ (∀ (i : Nat) (hi : i < (sortedPart lb day "1").length),
        partAward (sortedPart lb day "1") ((sortedPart lb day "1")[i].memberKey)
          = ((sortedPart lb day "1").length : Int) - (i : Int))
    ∧ (∀ (i : Nat) (hi : i < (sortedPart lb day "2").length),
        partAward (sortedPart lb day "2") ((sortedPart lb day "2")[i].memberKey)
          = ((sortedPart lb day "2").length : Int) - (i : Int))
    ∧ (∀ e ∈ BuildDayEntries lb day,
        e.DayScore = partAward (sortedPart lb day "1") e.MemberID
          + partAward (sortedPart lb day "2") e.MemberID)
    ∧ ((BuildDayEntries lb day).map DayEntry.DayScore).sum
        = ((((sortedPart lb day "1").length * ((sortedPart lb day "1").length + 1)) / 2 : Nat)
          + ((((sortedPart lb day "2").length * ((sortedPart lb day "2").length + 1)) / 2 : Nat) : Int)) := by
  have hN1 := sorted_keys_nodup lb day "1" hN
  have hN2 := sorted_keys_nodup lb day "2" hN
  have hcount : ∀ st : String, (sortedPart lb day st).length
      = lb.Members.countP (fun km => (dayStar km.2 (toString day) st).isSome) := by
    intro st
    have hlen : (sortedPart lb day st).length
        = (starRecords lb.Members (toString day) st).length :=
      (sortBy_perm ltTs _).length_eq
    rw [hlen, starRecords, length_filterMap_eq_countP]
    apply List.countP_congr
    intro km _
    cases hd : dayStar km.2 (toString day) st <;> simp [hd]
  refine ⟨hcount "1", hcount "2", ?_, ?_, ?_, ?_⟩
  · intro i hi
    exact partAward_getElem _ hN1 i hi
  · intro i hi
    exact partAward_getElem _ hN2 i hi
  · intro e he
    obtain ⟨km, hkm, hee⟩ := mem_build_scored lb day hN e he
    have hsc : e.DayScore = (scoredEntry lb day km).DayScore := by
      have := congrArg DayEntry.DayScore hee
      simpa [erasePos] using this
    have hid : e.MemberID = km.1 := by
      have := congrArg DayEntry.MemberID hee
      simpa [erasePos, scoredEntry] using this
    rw [hsc, hid]
    rfl
  · -- totals
    set s1 := sortBy ltTs (starRecords lb.Members (toString day) "1") with hs1
    set s2 := sortBy ltTs (starRecords lb.Members (toString day) "2") with hs2
    set rel := DayReleaseTime lb day with hrel
    set entries0 := lb.Members.map (initEntry day) with he0
    set e1 := (enumFrom 0 s1).foldl (awardStep (award1 s1.length rel)) entries0 with hE1
    set e2 := (enumFrom 0 s2).foldl (awardStep (award2 s2.length rel)) e1 with hE2
    have hmape : (BuildDayEntries lb day).map DayEntry.DayScore
        = (sortBy ltDisplay e2).map DayEntry.DayScore := by
      rw [build_eq_raw lb day]
      exact map_dayScore_of_erasePos _ _ (assignPos_map_erasePos _)
    have hsum1 : ((sortBy ltDisplay e2).map DayEntry.DayScore).sum
        = (e2.map DayEntry.DayScore).sum :=
      ((sortBy_perm ltDisplay e2).map DayEntry.DayScore).sum_eq
    have hids0 : entries0.map DayEntry.MemberID = lb.Members.map Prod.fst := by
      rw [he0, List.map_map]
      apply List.map_congr_left
      intro km _
      rfl
    have hkeysub : ∀ st : String, ∀ k, k ∈ ((sortBy ltTs (starRecords lb.Members (toString day) st)).map
        starRecord.memberKey) → k ∈ lb.Members.map Prod.fst := by
      intro st k hk
      have h1 : k ∈ (starRecords lb.Members (toString day) st).map starRecord.memberKey :=
        ((sortBy_perm ltTs _).map starRecord.memberKey).mem_iff.mp hk
      exact (starRecords_keys_sublist _ _ _).subset h1
    have hcount0 : ∀ (L : List DayEntry), L.map DayEntry.MemberID = lb.Members.map Prod.fst →
        ∀ st : String, ∀ p ∈ enumFrom 0 (sortBy ltTs (starRecords lb.Members (toString day) st)),
          L.countP (fun e => e.MemberID == p.2.memberKey) = 1 := by
      intro L hL st p hp
      rw [countP_key_of_map, hL]
      apply countP_eq_one_of_nodup _ hN
      apply hkeysub st
      exact List.mem_map_of_mem _ (enumFrom_snd_mem _ 0 p hp)
    have hsum0 : (entries0.map DayEntry.DayScore).sum = 0 := by
      apply List.sum_eq_zero
      intro x hx
      obtain ⟨e, he, hxe⟩ := List.mem_map.mp hx
      obtain ⟨km, hkm, hke⟩ := List.mem_map.mp he
      rw [← hxe, ← hke]
      rfl
    have hpass1 : (e1.map DayEntry.DayScore).sum
        = (entries0.map DayEntry.DayScore).sum
          + ((enumFrom 0 s1).map (fun p => (s1.length : Int) - (p.1 : Int))).sum := by
      exact pass_sum (award1 s1.length rel) (fun p => (s1.length : Int) - (p.1 : Int))
        (fun p e => rfl) (fun p e => rfl) (enumFrom 0 s1) entries0
        (hcount0 entries0 hids0 "1")
    have hids1 : e1.map DayEntry.MemberID = lb.Members.map Prod.fst := by
      rw [hE1, foldl_awardStep_memberID (award1 s1.length rel) (fun p e => rfl), hids0]
    have hpass2 : (e2.map DayEntry.DayScore).sum
        = (e1.map DayEntry.DayScore).sum
          + ((enumFrom 0 s2).map (fun p => (s2.length : Int) - (p.1 : Int))).sum := by
      exact pass_sum (award2 s2.length rel) (fun p => (s2.length : Int) - (p.1 : Int))
        (fun p e => rfl) (fun p e => rfl) (enumFrom 0 s2) e1
        (hcount0 e1 hids1 "2")
    have htr1 : ((enumFrom 0 s1).map (fun p => (s1.length : Int) - (p.1 : Int))).sum
        = (triangular s1.length : Int) := by
      have := enumFrom_sum_amt s1.length s1 0 (by omega)
      simpa using this
    have htr2 : ((enumFrom 0 s2).map (fun p => (s2.length : Int) - (p.1 : Int))).sum
        = (triangular s2.length : Int) := by
      have := enumFrom_sum_amt s2.length s2 0 (by omega)
      simpa using this
    have hfinal : ((BuildDayEntries lb day).map DayEntry.DayScore).sum
        = (triangular s1.length : Int) + (triangular s2.length : Int) := by
      rw [hmape, hsum1, hpass2, hpass1, hsum0, htr1, htr2]
      ring
    rw [hfinal]
    have ht1 := triangular_eq s1.length
    have ht2 := triangular_eq s2.length
    have hl1 : (sortedPart lb day "1").length = s1.length := rfl
    have hl2 : (sortedPart lb day "2").length = s2.length := rfl
    rw [hl1, hl2, ht1, ht2]

/-- Witness for C2 on the fixture `lbW` at day 1: two part-1 finishers and
one part-2 finisher give total score 3 + 1 = 4. -/
theorem buildDayEntries_triangular_sum_witness :
    ((BuildDayEntries lbW 1).map DayEntry.DayScore).sum
      = ((((sortedPart lbW 1 "1").length * ((sortedPart lbW 1 "1").length + 1)) / 2 : Nat)
        + ((((sortedPart lbW 1 "2").length * ((sortedPart lbW 1 "2").length + 1)) / 2 : Nat) : Int))
    ∧ (sortedPart lbW 1 "1").length = 2 ∧ (sortedPart lbW 1 "2").length = 1
    ∧ ((BuildDayEntries lbW 1).map DayEntry.DayScore).sum = 4 := by
  refine ⟨(buildDayEntries_triangular_sum lbW 1 (by decide)).2.2.2.2.2, by decide, by decide,
    by decide⟩

theorem foldl_if_max (kvs : List (String × List (String × StarCompletion))) :
    ∀ (acc : Int),
      kvs.foldl (fun a kv =>
        match atoi? kv.1 with
        | none => a
        | some d => if d > a then d else a) acc
        = (kvs.filterMap (fun kv => atoi? kv.1)).foldl max acc := by
  induction kvs with
  | nil => intro acc; rfl
  | cons kv rest ih =>
    intro acc
    rw [List.foldl_cons, List.filterMap_cons]
    cases h : atoi? kv.1 with
    | none => rw [ih]
    | some d =>
      rw [List.foldl_cons, ih]
      congr 1
      change (if d > acc then d else acc) = max acc d
      rcases lt_trichotomy acc d with hx | hx | hx
      · rw [if_pos hx, max_eq_right (le_of_lt hx)]
      · rw [hx, if_neg (lt_irrefl d), max_self]
      · rw [if_neg (not_lt_of_lt hx), max_eq_left (le_of_lt hx)]

theorem members_fold_max (lb : Leaderboard) :
    lb.Members.foldl (fun acc km =>
      km.2.CompletionDayLevel.foldl (fun acc2 kv =>
        match atoi? kv.1 with
        | none => acc2
        | some d => if d > acc2 then d else acc2) acc) 1
      = (numericDayKeys lb).foldl max 1 := by
  suffices h : ∀ (ms : List (String × Member)) (acc : Int),
      ms.foldl (fun acc km =>
        km.2.CompletionDayLevel.foldl (fun acc2 kv =>
          match atoi? kv.1 with
          | none => acc2
          | some d => if d > acc2 then d else acc2) acc) acc
        = (ms.foldr (fun km acc2 =>
            km.2.CompletionDayLevel.filterMap (fun kv => atoi? kv.1) ++ acc2) []).foldl max acc by
    exact h lb.Members 1
  intro ms
  induction ms with
  | nil => intro acc; rfl
  | cons km rest ih =>
    intro acc
    rw [List.foldl_cons, List.foldr_cons, List.foldl_append, foldl_if_max, ih]

theorem foldl_max_ge_init (l : List Int) : ∀ (acc : Int), acc ≤ l.foldl max acc := by
  induction l with
  | nil => intro acc; exact le_refl acc
  | cons x rest ih =>
    intro acc
    rw [List.foldl_cons]
    exact le_trans (le_max_left acc x) (ih (max acc x))

/-- C5: `MaxAvailableDay` is always at least 1, never exceeds a positive
declared `NumDays` bound, equals the largest numeric day key clamped below
by 1 and above by the positive bound (`specMaxAvailableDay`), and ignores
non-numeric day keys in the scan. -/
theorem maxAvailableDay_spec (lb : Leaderboard) :
    1 ≤ MaxAvailableDay lb
    ∧ (0 < lb.NumDays → MaxAvailableDay lb ≤ lb.NumDays)
    ∧ MaxAvailableDay lb = specMaxAvailableDay lb
    ∧ (∀ (key topKey : String) (dd : List (String × StarCompletion)) (m : Member)
        (rest : List (String × Member)), atoi? key = none →
        MaxAvailableDay { lb with Members :=
          (topKey, { m with CompletionDayLevel := (key, dd) :: m.CompletionDayLevel }) :: rest }
        = MaxAvailableDay { lb with Members := (topKey, m) :: rest }) := by
  have hM : 1 ≤ (numericDayKeys lb).foldl max 1 := foldl_max_ge_init _ 1
  have heq : MaxAvailableDay lb = specMaxAvailableDay lb := by
    simp only [MaxAvailableDay, specMaxAvailableDay, members_fold_max]
    set M := (numericDayKeys lb).foldl max 1 with hMdef
    by_cases h1 : lb.NumDays > 0 ∧ M > lb.NumDays
    · rw [if_pos h1, if_pos h1.1]
      have hx : ¬ lb.NumDays < 1 := by omega
      rw [if_neg hx]
      omega
    · rw [if_neg h1]
      have hnl : ¬ M < 1 := by omega
      rw [if_neg hnl]
      by_cases h2 : 0 < lb.NumDays
      · rw [if_pos h2]
        omega
      · rw [if_neg h2]
  refine ⟨?_, ?_, heq, ?_⟩
  · rw [heq]
    simp only [specMaxAvailableDay]
    omega
  · intro hpos
    rw [heq]
    simp only [specMaxAvailableDay]
    omega
  · intro key topKey dd m rest hkey
    simp only [MaxAvailableDay, List.foldl_cons, hkey]

/-- Witness for C5 on the fixture `lbW` plus a non-numeric day key. -/
theorem maxAvailableDay_spec_witness :
    1 ≤ MaxAvailableDay lbW
    ∧ (0 < lbW.NumDays ∧ MaxAvailableDay lbW ≤ lbW.NumDays)
    ∧ MaxAvailableDay lbW = specMaxAvailableDay lbW
    ∧ (atoi? "zz" = none
       ∧ MaxAvailableDay { lbW with Members :=
            ("a", { wAlice with CompletionDayLevel := ("zz", []) :: wAlice.CompletionDayLevel })
              :: [("b", wBob)] }
          = MaxAvailableDay { lbW with Members := ("a", wAlice) :: [("b", wBob)] }) := by
  have h := maxAvailableDay_spec lbW
  have hpos : (0 : Int) < lbW.NumDays := by decide
  have hzz : atoi? "zz" = none := by decide
  exact ⟨h.1, ⟨hpos, h.2.1 hpos⟩, h.2.2.1,
    hzz, h.2.2.2 "zz" "a" [] wAlice [("b", wBob)] hzz⟩

/-- C7: in the loading state, a fetch-error event (timeouts included — the
fetch command surfaces a deadline expiry as the same error message kind)
records the error, moves the controller to the leaderboard view whether or
not a snapshot exists, and leaves the snapshot, the entries and the active
day untouched. -/
theorem update_fetch_error (parse : String → Option URLParts) (save : Config → Option String)
    (tiUpdate : String → Msg → String) (m : Model) (e : String)
    (h : m.state = appState.stateLoading) :
    Update parse save tiUpdate m (Msg.errMsg e)
      = ({ m with err := some e, state := appState.stateLeaderboard }, Cmd.none)
    ∧ (Update parse save tiUpdate m (Msg.errMsg e)).1.leaderboard = m.leaderboard
    ∧ (Update parse save tiUpdate m (Msg.errMsg e)).1.entries = m.entries
    ∧ (Update parse save tiUpdate m (Msg.errMsg e)).1.currentDay = m.currentDay := by
  refine ⟨?_, ?_, ?_, ?_⟩ <;> simp [Update, h]

/-- Witness for C7: a timeout error received while loading with a stored
snapshot keeps it and falls back to the leaderboard view. -/
theorem update_fetch_error_witness :
    m7.state = appState.stateLoading
    ∧ Update parse0 save0 tiUpd0 m7 (Msg.errMsg "context deadline exceeded")
        = ({ m7 with err := some "context deadline exceeded",
                     state := appState.stateLeaderboard }, Cmd.none)
    ∧ (Update parse0 save0 tiUpd0 m7 (Msg.errMsg "context deadline exceeded")).1.leaderboard
        = some lbW := by
  have h := update_fetch_error parse0 save0 tiUpd0 m7 "context deadline exceeded" rfl
  exact ⟨rfl, h.1, by rw [h.2.1]; rfl⟩

/-- C9: in the viewing state with the picker closed and the day within
`[1, maxDay]`, navigating left at day 1 or right at the maximum day leaves
the whole model unchanged and issues no command; otherwise the active day
moves by exactly one, stays within `[1, maxDay]`, and the entries are
recomputed for the new day. -/
theorem update_viewing_nav (parse : String → Option URLParts) (save : Config → Option String)
    (tiUpdate : String → Msg → String) (m : Model) (lb : Leaderboard)
    (hstate : m.state = appState.stateLeaderboard)
    (hpick : m.dayPicker = false)
    (hlb : m.leaderboard = some lb)
    (hlo : 1 ≤ m.currentDay) (hhi : m.currentDay ≤ m.maxDay) :
    (∀ key, key = "left" ∨ key = "h" →
       (m.currentDay = 1 → Update parse save tiUpdate m (Msg.key key) = (m, Cmd.none))
       ∧ (1 < m.currentDay →
            Update parse save tiUpdate m (Msg.key key)
              = ({ m with currentDay := m.currentDay - 1,
                          entries := BuildDayEntries lb (m.currentDay - 1) }, Cmd.none)
            ∧ 1 ≤ m.currentDay - 1 ∧ m.currentDay - 1 ≤ m.maxDay))
    ∧ (∀ key, key = "right" ∨ key = "l" →
       (m.currentDay = m.maxDay → Update parse save tiUpdate m (Msg.key key) = (m, Cmd.none))
       ∧ (m.currentDay < m.maxDay →
            Update parse save tiUpdate m (Msg.key key)
              = ({ m with currentDay := m.currentDay + 1,
                          entries := BuildDayEntries lb (m.currentDay + 1) }, Cmd.none)
            ∧ 1 ≤ m.currentDay + 1 ∧ m.currentDay + 1 ≤ m.maxDay)) := by
  constructor
  · intro key hkey
    constructor
    · intro hday
      rcases hkey with rfl | rfl <;>
        simp [Update, hstate, updateLeaderboardKey, hlb, hpick, hday]
    · intro hday
      have hgt : m.currentDay > 1 := hday
      rcases hkey with rfl | rfl <;>
        exact ⟨by simp [Update, hstate, updateLeaderboardKey, hlb, hpick, hgt],
          by omega, by omega⟩
  · intro key hkey
    constructor
    · intro hday
      have hng : ¬ m.currentDay < m.maxDay := by omega
      rcases hkey with rfl | rfl <;>
        simp [Update, hstate, updateLeaderboardKey, hlb, hpick, hng]
    · intro hday
      rcases hkey with rfl | rfl <;>
        exact ⟨by simp [Update, hstate, updateLeaderboardKey, hlb, hpick, hday],
          by omega, by omega⟩

/-- Witness for C9 on the fixture `m9` (viewing day 2 of 2): `right` is a
no-op and `left` moves to day 1 recomputing the entries. -/
theorem update_viewing_nav_witness :
    Update parse0 save0 tiUpd0 m9 (Msg.key "right") = (m9, Cmd.none)
    ∧ Update parse0 save0 tiUpd0 m9 (Msg.key "left")
        = ({ m9 with currentDay := 1, entries := BuildDayEntries lbW 1 }, Cmd.none) := by
  have h := update_viewing_nav parse0 save0 tiUpd0 m9 lbW rfl rfl rfl (by decide) (by decide)
  refine ⟨(h.2 "right" (Or.inl rfl)).1 rfl, ?_⟩
  have h2 := ((h.1 "left" (Or.inl rfl)).2 (by decide)).1
  simpa using h2

theorem validate_unfold_some (parse : String → Option URLParts) (raw : String) (u : URLParts)
    (h0 : ¬ trimStr raw = "") (hp : parse raw = some u) :
    validateLeaderboardURL parse raw =
      (if u.scheme ≠ "https" ∧ u.scheme ≠ "http" then
        some "URL must start with http or https"
      else if ¬ strHasSuffix u.path ".json" = true
          ∨ ¬ listIsInfix "/leaderboard/private/view/".data u.path.data = true then
        some "URL should be the private leaderboard JSON link (…/leaderboard/private/view/<id>.json)"
      else if trimStr (queryGet u.query "view_key") = "" then
        some "URL must include ?view_key=<value>"
      else none) := by
  unfold validateLeaderboardURL
  rw [if_neg h0, hp]

/-- C8: URL validation succeeds exactly when the trimmed string is
non-empty, the string parses with scheme `http` or `https`, the path ends
in `.json` and contains the private-leaderboard segment, and the query's
`view_key` is non-blank; each violated clause produces its own distinct
message; and on any validation failure `updateConfigKey` records the error
and never calls the external `config.Save`. -/
theorem validateLeaderboardURL_contract (parse : String → Option URLParts) (raw : String) :
    (validateLeaderboardURL parse raw = none ↔
      (trimStr raw ≠ "" ∧ ∃ u, parse raw = some u
        ∧ (u.scheme = "https" ∨ u.scheme = "http")
        ∧ strHasSuffix u.path ".json" = true
        ∧ listIsInfix "/leaderboard/private/view/".data u.path.data = true
        ∧ trimStr (queryGet u.query "view_key") ≠ ""))
    ∧ (trimStr raw = "" → validateLeaderboardURL parse raw = some "URL cannot be empty")
    ∧ (trimStr raw ≠ "" → parse raw = none →
        validateLeaderboardURL parse raw = some "invalid URL")
    ∧ (∀ u, trimStr raw ≠ "" → parse raw = some u →
        (¬(u.scheme = "https" ∨ u.scheme = "http") →
          validateLeaderboardURL parse raw = some "URL must start with http or https")
        ∧ ((u.scheme = "https" ∨ u.scheme = "http") →
          ¬(strHasSuffix u.path ".json" = true
            ∧ listIsInfix "/leaderboard/private/view/".data u.path.data = true) →
          validateLeaderboardURL parse raw
            = some "URL should be the private leaderboard JSON link (…/leaderboard/private/view/<id>.json)")
        ∧ ((u.scheme = "https" ∨ u.scheme = "http") →
          strHasSuffix u.path ".json" = true →
          listIsInfix "/leaderboard/private/view/".data u.path.data = true →
          trimStr (queryGet u.query "view_key") = "" →
          validateLeaderboardURL parse raw = some "URL must include ?view_key=<value>"))
    ∧ ([("URL cannot be empty" : String), "invalid URL", "URL must start with http or https",
        "URL should be the private leaderboard JSON link (…/leaderboard/private/view/<id>.json)",
        "URL must include ?view_key=<value>"].Nodup)
    ∧ (∀ (save : Config → Option String) (tiUpdate : String → Msg → String)
        (m : Model) (msgv : String),
        validateLeaderboardURL parse (trimStr m.textInputValue) = some msgv →
        updateConfigKey parse save tiUpdate m "enter"
          = ⟨{ m with err := some msgv }, Cmd.none, false⟩) := by
  have hsch_ne : ∀ u : URLParts, (u.scheme = "https" ∨ u.scheme = "http") →
      ¬ (u.scheme ≠ "https" ∧ u.scheme ≠ "http") := by
    rintro u (hs | hs) hx
    · exact hx.1 hs
    · exact hx.2 hs
  have hsch_or : ∀ u : URLParts, ¬ (u.scheme ≠ "https" ∧ u.scheme ≠ "http") →
      (u.scheme = "https" ∨ u.scheme = "http") := by
    intro u hx
    by_cases hs : u.scheme = "https"
    · exact Or.inl hs
    · refine Or.inr ?_
      by_contra hh
      exact hx ⟨hs, hh⟩
  refine ⟨?_, ?_, ?_, ?_, by decide, ?_⟩
  · by_cases h0 : trimStr raw = ""
    · unfold validateLeaderboardURL
      simp [h0]
    · cases hp : parse raw with
      | none =>
        unfold validateLeaderboardURL
        rw [if_neg h0, hp]
        simp only [reduceCtorEq, false_iff, not_and]
        intro _
        rintro ⟨u2, hu2, _⟩
        exact absurd hu2 (by simp)
      | some u =>
        rw [validate_unfold_some parse raw u h0 hp]
        by_cases h1 : u.scheme ≠ "https" ∧ u.scheme ≠ "http"
        · rw [if_pos h1]
          simp only [reduceCtorEq, false_iff, not_and]
          intro _
          rintro ⟨u2, hu2, hsch, _⟩
          obtain rfl : u = u2 := Option.some.inj hu2
          exact hsch_ne u hsch h1
        · rw [if_neg h1]
          by_cases h2 : ¬ strHasSuffix u.path ".json" = true
              ∨ ¬ listIsInfix "/leaderboard/private/view/".data u.path.data = true
          · rw [if_pos h2]
            simp only [reduceCtorEq, false_iff, not_and]
            intro _
            rintro ⟨u2, hu2, _, hsuf, hinf, _⟩
            obtain rfl : u = u2 := Option.some.inj hu2
            rcases h2 with h2 | h2
            · exact h2 hsuf
            · exact h2 hinf
          · rw [if_neg h2]
            push_neg at h2
            by_cases h3 : trimStr (queryGet u.query "view_key") = ""
            · rw [if_pos h3]
              simp only [reduceCtorEq, false_iff, not_and]
              intro _
              rintro ⟨u2, hu2, _, _, _, hvk⟩
              obtain rfl : u = u2 := Option.some.inj hu2
              exact hvk h3
            · rw [if_neg h3]
              simp only [true_iff]
              exact ⟨h0, u, rfl, hsch_or u h1, h2.1, h2.2, h3⟩
  · intro h0
    unfold validateLeaderboardURL
    simp [h0]
  · intro h0 hp
    unfold validateLeaderboardURL
    rw [if_neg h0, hp]
  · intro u h0 hp
    refine ⟨?_, ?_, ?_⟩
    · intro hsch
      rw [validate_unfold_some parse raw u h0 hp]
      push_neg at hsch
      rw [if_pos hsch]
    · intro hsch hpath
      rw [validate_unfold_some parse raw u h0 hp, if_neg (hsch_ne u hsch)]
      have h2 : ¬ strHasSuffix u.path ".json" = true
          ∨ ¬ listIsInfix "/leaderboard/private/view/".data u.path.data = true := by
        by_contra hx
        push_neg at hx
        exact hpath ⟨hx.1, hx.2⟩
      rw [if_pos h2]
    · intro hsch hsuf hinf hvk
      rw [validate_unfold_some parse raw u h0 hp, if_neg (hsch_ne u hsch)]
      have h2 : ¬ (¬ strHasSuffix u.path ".json" = true
          ∨ ¬ listIsInfix "/leaderboard/private/view/".data u.path.data = true) := by
        rintro (hx | hx)
        · exact hx hsuf
        · exact hx hinf
      rw [if_neg h2, if_pos hvk]
  · intro save tiUpdate m msgv hval
    unfold updateConfigKey
    rw [if_pos rfl]
    simp [hval]

/-- Witness for C8: the fixture URL without a `view_key` is rejected with
the dedicated message and `config.Save` is not invoked. -/
theorem validateLeaderboardURL_contract_witness :
    validateLeaderboardURL parse0
        "https://adventofcode.com/2024/leaderboard/private/view/12345.json"
      = some "URL must include ?view_key=<value>"
    ∧ updateConfigKey parse0 save0 tiUpd0 m8 "enter"
      = ⟨{ m8 with err := some "URL must include ?view_key=<value>" }, Cmd.none, false⟩ := by
  have htrim : trimStr m8.textInputValue
      = "https://adventofcode.com/2024/leaderboard/private/view/12345.json" := by decide
  have h := validateLeaderboardURL_contract parse0
    "https://adventofcode.com/2024/leaderboard/private/view/12345.json"
  have hval := (h.2.2.2.1 ⟨"https", "/2024/leaderboard/private/view/12345.json", []⟩
      (by decide) (by decide)).2.2 (by decide) (by decide) (by decide) (by decide)
  refine ⟨hval, ?_⟩
  exact h.2.2.2.2.2 save0 tiUpd0 m8 "URL must include ?view_key=<value>"
    (by rw [htrim]; exact hval)

theorem foldl_awardStep_perm (u : Nat × starRecord → DayEntry → DayEntry) :
    ∀ (L : List (Nat × starRecord)) (l1 l2 : List DayEntry), l1.Perm l2 →
      (L.foldl (awardStep u) l1).Perm (L.foldl (awardStep u) l2) := by
  intro L
  induction L with
  | nil => intro l1 l2 h; exact h
  | cons p L ih =>
    intro l1 l2 h
    rw [List.foldl_cons, List.foldl_cons]
    exact ih _ _ (h.map _)

/-- C6 counterexample: the same snapshot (same member map, merely
enumerated in the two possible orders Go's randomized map iteration can
produce) with two members sharing one part-1 timestamp yields two
different outputs, so with tied timestamps the result is not a function
of the (snapshot, day) pair. -/
theorem buildDayEntries_tie_breaks_purity :
    lbTie1.Members.Perm lbTie2.Members
    ∧ lbTie1.NumDays = lbTie2.NumDays ∧ lbTie1.OwnerID = lbTie2.OwnerID
    ∧ lbTie1.Day1Ts = lbTie2.Day1Ts ∧ lbTie1.Event = lbTie2.Event
    ∧ BuildDayEntries lbTie1 1 ≠ BuildDayEntries lbTie2 1 :=
  ⟨by decide, rfl, rfl, rfl, rfl, by decide⟩

/-- C6 (amended): `BuildDayEntries` is a pure function of the member list
as enumerated, and whenever the completion timestamps within each part are
pairwise distinct its output does not depend on the enumeration order of
the member map at all; only with tied timestamps can the order matter. -/
theorem buildDayEntries_order_invariant (lb : Leaderboard) (ms2 : List (String × Member))
    (day : Int)
    (hperm : lb.Members.Perm ms2)
    (hN : (lb.Members.map Prod.fst).Nodup)
    (hts1 : ((starRecords lb.Members (toString day) "1").map starRecord.ts).Nodup)
    (hts2 : ((starRecords lb.Members (toString day) "2").map starRecord.ts).Nodup) :
    BuildDayEntries lb day = BuildDayEntries { lb with Members := ms2 } day := by
  have hsx : ∀ st : String,
      ((starRecords lb.Members (toString day) st).map starRecord.ts).Nodup →
      sortBy ltTs (starRecords lb.Members (toString day) st)
        = sortBy ltTs (starRecords ms2 (toString day) st) := by
    intro st hts
    have hp : (starRecords lb.Members (toString day) st).Perm
        (starRecords ms2 (toString day) st) := hperm.filterMap _
    apply sorted_perm_unique ltTs
    · exact (sortBy_perm ltTs _).trans (hp.trans (sortBy_perm ltTs _).symm)
    · exact sortBy_ltTs_pairwise _
    · exact sortBy_ltTs_pairwise _
    · intro a ha b hb hab
      have ha2 : a ∈ starRecords lb.Members (toString day) st :=
        (sortBy_perm ltTs _).mem_iff.mp ha
      have hb2 : b ∈ starRecords lb.Members (toString day) st :=
        (sortBy_perm ltTs _).mem_iff.mp hb
      have hne : a.ts ≠ b.ts := by
        intro hx
        exact hab (List.inj_on_of_nodup_map hts ha2 hb2 hx)
      rcases lt_trichotomy a.ts b.ts with h | h | h
      · exact Or.inl (by simp [ltTs, h])
      · exact absurd h hne
      · exact Or.inr (by simp [ltTs, h])
  have hs1 := hsx "1" hts1
  have hs2 := hsx "2" hts2
  rw [build_eq_raw lb day, build_eq_raw { lb with Members := ms2 } day]
  have hrel : DayReleaseTime { lb with Members := ms2 } day = DayReleaseTime lb day := rfl
  simp only [hrel]
  rw [← hs1, ← hs2]
  set s1 := sortBy ltTs (starRecords lb.Members (toString day) "1") with hs1d
  set s2 := sortBy ltTs (starRecords lb.Members (toString day) "2") with hs2d
  set rel := DayReleaseTime lb day with hreld
  have he0 : (lb.Members.map (initEntry day)).Perm (ms2.map (initEntry day)) :=
    hperm.map _
  have he1 : ((enumFrom 0 s1).foldl (awardStep (award1 s1.length rel))
      (lb.Members.map (initEntry day))).Perm
      ((enumFrom 0 s1).foldl (awardStep (award1 s1.length rel)) (ms2.map (initEntry day))) :=
    foldl_awardStep_perm _ _ _ _ he0
  have he2 : ((enumFrom 0 s2).foldl (awardStep (award2 s2.length rel))
      ((enumFrom 0 s1).foldl (awardStep (award1 s1.length rel))
        (lb.Members.map (initEntry day)))).Perm
      ((enumFrom 0 s2).foldl (awardStep (award2 s2.length rel))
        ((enumFrom 0 s1).foldl (awardStep (award1 s1.length rel))
          (ms2.map (initEntry day)))) :=
    foldl_awardStep_perm _ _ _ _ he1
  set eL := (enumFrom 0 s2).foldl (awardStep (award2 s2.length rel))
      ((enumFrom 0 s1).foldl (awardStep (award1 s1.length rel))
        (lb.Members.map (initEntry day))) with heL
  set eR := (enumFrom 0 s2).foldl (awardStep (award2 s2.length rel))
      ((enumFrom 0 s1).foldl (awardStep (award1 s1.length rel))
        (ms2.map (initEntry day))) with heR
  have hidsL : eL.map DayEntry.MemberID = lb.Members.map Prod.fst := by
    rw [heL, foldl_awardStep_memberID (award2 s2.length rel) (fun p e => rfl),
      foldl_awardStep_memberID (award1 s1.length rel) (fun p e => rfl), List.map_map]
    apply List.map_congr_left
    intro km _
    rfl
  have hNL : (eL.map DayEntry.MemberID).Nodup := by
    rw [hidsL]
    exact hN
  have hsortEq : sortBy ltDisplay eL = sortBy ltDisplay eR := by
    apply sorted_perm_unique ltDisplay
    · exact (sortBy_perm ltDisplay _).trans (he2.trans (sortBy_perm ltDisplay _).symm)
    · exact sortBy_ltDisplay_pairwise _
    · exact sortBy_ltDisplay_pairwise _
    · intro a ha b hb hab
      have ha2 : a ∈ eL := (sortBy_perm ltDisplay _).mem_iff.mp ha
      have hb2 : b ∈ eL := (sortBy_perm ltDisplay _).mem_iff.mp hb
      have hne : a.MemberID ≠ b.MemberID := by
        intro hx
        exact hab (List.inj_on_of_nodup_map hNL ha2 hb2 hx)
      exact ltDisplay_total a b hne
  rw [hsortEq]

/-- Witness for the amended C6 on the fixture `lbW` (all timestamps
distinct): both enumeration orders yield the same output. -/
theorem buildDayEntries_order_invariant_witness :
    BuildDayEntries lbW 1 = BuildDayEntries lbWperm 1 := by
  have h := buildDayEntries_order_invariant lbW lbWperm.Members 1
    (by decide) (by decide) (by decide) (by decide)
  exact h
